import Mathlib

/-!
Verification of the ParNCSubMesh construction algorithm
(mesh/submesh/pncsubmesh.cpp): a shallow embedding of the identity
registry, the domain- and boundary-extraction passes, the topological
reordering loop and its comparator, and the orientation-repair child
permutation, together with proofs and refutations of the stated
invariants.
-/

namespace NCSub

/-! ## Definitions: the shallow embedding of pncsubmesh.cpp -/

/-- Geometry tags relevant to the boundary extraction pass. -/
inductive GeomType where
  | SEGMENT
  | TRIANGLE
  | SQUARE
  deriving DecidableEq, Repr, Inhabited

/-- Embedding of the lambda `face_geom_from_nodes` (pncsubmesh.cpp lines
169-174): triangle when the fourth node is -1, else degenerate segment when
node pairs (0,1) and (2,3) coincide, else quad. -/
def face_geom_from_nodes (nodes : List Int) : GeomType :=
  if nodes.getD 3 0 = -1 then GeomType.TRIANGLE
  else if nodes.getD 0 0 = nodes.getD 1 0 ∧ nodes.getD 2 0 = nodes.getD 3 0 then
    GeomType.SEGMENT
  else GeomType.SQUARE

/-- The face-geometry rule in the order the spec sentence states it
(segment test first, then the triangle test), for comparison with the
source order in `face_geom_from_nodes`. -/
def face_geom_from_nodes_specOrder (nodes : List Int) : GeomType :=
  if nodes.getD 0 0 = nodes.getD 1 0 ∧ nodes.getD 2 0 = nodes.getD 3 0 then
    GeomType.SEGMENT
  else if nodes.getD 3 0 = -1 then GeomType.TRIANGLE
  else GeomType.SQUARE

/-- Modelled from the spec: the Node/Element identity registry
`SubMeshUtils::UniqueIndexGenerator` (its implementation lives in
mesh/submesh/submesh_utils.cpp, which is not part of the sampled sources;
only its call sites in pncsubmesh.cpp are). Per spec section 4.1 it keeps a
dictionary from parent id to submesh id plus a counter of ids handed out.
The dictionary is represented as an association list in insertion order. -/
structure UniqueIndexGenerator where
  idx : List (Int × Nat)
  counter : Nat
  deriving DecidableEq, Repr, Inhabited

/-- Association-list lookup, mirroring `std::unordered_map::find` /
`std::map::find` on a container that never holds two entries with the same
key. -/
def alookup : List (Int × Nat) → Int → Option Nat
  | [], _ => none
  | e :: es, k => if e.1 = k then some e.2 else alookup es k

/-- Modelled from the spec: `UniqueIndexGenerator::Get(parent_id, is_new)`.
First call for a parent id allocates the next unused contiguous submesh id
and reports new; later calls return the stored id and report not new.
Returns (submesh id, is_new flag, updated registry). -/
def uigGet (s : UniqueIndexGenerator) (p : Int) : Nat × Bool × UniqueIndexGenerator :=
  match alookup s.idx p with
  | some v => (v, false, s)
  | none => (s.counter, true,
      { idx := s.idx ++ [(p, s.counter)], counter := s.counter + 1 })

/-- The empty registry a construction starts from. -/
def uigEmpty : UniqueIndexGenerator := { idx := [], counter := 0 }

/-- Registry state after a sequence of Get requests. -/
def uigRun (trace : List Int) : UniqueIndexGenerator :=
  trace.foldl (fun s p => (uigGet s p).2.2) uigEmpty

/-- `std::unordered_map` style write `m[k] = v`: overwrite when the key is
present, append a fresh entry otherwise. -/
def mapSet (m : List (Int × Nat)) (k : Int) (v : Nat) : List (Int × Nat) :=
  if (alookup m k).isSome then
    m.map (fun e => if e.1 = k then (k, v) else e)
  else m ++ [(k, v)]

/-- State of one forward/inverse identity-map pair kept in lockstep with the
registry, as maintained by pncsubmesh.cpp lines 86-95 and 132-138: on a new
id, append the parent id to the forward array and record the inverse entry;
on an already-known id, leave both untouched. -/
structure IdMaps where
  gen : UniqueIndexGenerator
  ids : List Int
  inv : List (Int × Nat)
  deriving DecidableEq, Repr, Inhabited

/-- The empty identity-map state. -/
def idMapsEmpty : IdMaps := { gen := uigEmpty, ids := [], inv := [] }

/-- One registration step (pncsubmesh.cpp lines 86-95: Get, then on a new id
Alloc + Append to `parent_node_ids_` + insert into
`parent_to_submesh_node_ids_`). -/
def idRegister (s : IdMaps) (p : Int) : IdMaps :=
  let r := uigGet s.gen p
  if r.2.1 then
    { gen := r.2.2, ids := s.ids ++ [p], inv := mapSet s.inv p r.1 }
  else
    { s with gen := r.2.2 }

/-- Identity-map state after a sequence of registrations. -/
def idMapsRun (trace : List Int) : IdMaps :=
  trace.foldl idRegister idMapsEmpty

/-- Embedding of the inverse-map rebuild of pncsubmesh.cpp lines 457-462:
clear the map, then for each submesh index whose recorded parent id is not
-1, write parent id -> submesh index. -/
def rebuildInv (pids : List Int) : List (Int × Nat) :=
  (List.range pids.length).foldl
    (fun m i => if pids.getD i 0 = -1 then m else mapSet m (pids.getD i 0) i) []

/-- Invariant of the identity registry: the submesh ids handed out so far are
exactly 0, 1, ..., counter-1 in first-touch order, and no parent id occurs
twice. -/
def UigInv (s : UniqueIndexGenerator) : Prop :=
  s.idx.map Prod.snd = List.range s.counter ∧ (s.idx.map Prod.fst).Nodup

/-- Invariant tying a forward/inverse identity-map pair to the registry. -/
def IdInv (s : IdMaps) : Prop :=
  s.gen.idx = s.inv ∧ s.inv = s.ids.zip (List.range s.ids.length) ∧
  s.ids.Nodup ∧ s.gen.counter = s.ids.length

/-- Parent-mesh element as consumed by the domain extraction pass: attribute
tag, leaf flag, the vertex node ids (one per geometry vertex, `el.node`),
and the edge list of the geometry as pairs of local vertex indices
(`GI[geom].edges`). -/
structure PElem where
  attrib : Int
  leaf : Bool
  node : List Int
  edges : List (Nat × Nat)
  deriving DecidableEq, Repr, Inhabited

/-- Modelled from the spec: `SubMeshUtils::HasAttribute` (submesh_utils.hpp,
not under src/) - membership of the attribute of the element in the requested
attribute set. -/
def hasAttribute (attrs : List Int) (a : Int) : Bool := attrs.contains a

/-- Ordered insert with `std::set` semantics: ascending order, no
duplicates. -/
def setInsert : List Int → Int → List Int
  | [], x => [x]
  | y :: ys, x =>
    if x < y then x :: y :: ys
    else if x = y then y :: ys
    else y :: setInsert ys x

/-- The first element walk of the domain pass (pncsubmesh.cpp lines 59-82):
for every parent element whose attribute matches, if it is a leaf, insert
its vertex node ids and then its edge mid-node ids (obtained through the
parent-mesh `nodes.FindId`, passed here as an oracle) into the ordered
set `new_nodes`. -/
def collectNewNodes (findId : Int → Int → Int) (attrs : List Int)
    (pes : List PElem) : List Int :=
  pes.foldl (fun acc pe =>
    if hasAttribute attrs pe.attrib then
      if pe.leaf then
        (pe.edges.foldl
          (fun a e => setInsert a (findId (pe.node.getD e.1 0) (pe.node.getD e.2 0)))
          (pe.node.foldl setInsert acc))
      else acc
    else acc) []

/-- MaxFaceNodes (ncmesh_tables / ncmesh.hpp): a face is keyed by up to four
node ids. -/
def MaxFaceNodes : Nat := 4

/-- Embedding of the child-slot repair of pncsubmesh.cpp lines 320-327: for
each position i1 in the newly discovered node order, find the first position
i2 in the previously stored node order holding the same node value (the
inner loop breaks on the first hit) and write the child previously wired at
position i1 into position i2 of the fresh local array. Positions never
matched keep the indeterminate initial contents `init` of the local C++
array, which `std::copy` then transfers wholesale. -/
def fixChildren (fnNew fnOld oldChild init : List Int) : List Int :=
  (List.range MaxFaceNodes).foldl
    (fun acc i1 =>
      let i2 := List.indexOf (fnNew.getD i1 0) fnOld
      if i2 < MaxFaceNodes then acc.set i2 (oldChild.getD i1 0) else acc) init

/-- std::lexicographical_compare on int sequences. -/
def lexLt : List Int → List Int → Bool
  | _, [] => false
  | [], _ :: _ => true
  | a :: as, b :: bs =>
    if a < b then true
    else if b < a then false
    else lexLt as bs

/-- The node tuple sorted ascending, as `FaceNodes::operator<` sorts both
sides before comparing (pncsubmesh.cpp lines 181-188). -/
def sortNodes (l : List Int) : List Int := List.insertionSort (fun x y : Int => x ≤ y) l

/-- FaceNodes::operator< (pncsubmesh.cpp lines 181-188): compare the sorted
node contents lexicographically. -/
def fnLt (a b : List Int) : Bool := lexLt (sortNodes a) (sortNodes b)

/-- Key equivalence induced on the `std::map` keyed by FaceNodes: neither
key is less than the other. -/
def fnEquiv (a b : List Int) : Bool := !fnLt a b && !fnLt b a

/-- Lookup in `pnodes_new_elem`, returning the stored representative tuple
together with the element id. -/
def faceMapFind (m : List (List Int × Nat)) (k : List Int) : Option (List Int × Nat) :=
  m.find? (fun e => fnEquiv e.1 k)

/-- `pnodes_new_elem.erase(pelem->first)`: drop the entry with an equivalent
key. -/
def faceMapErase (m : List (List Int × Nat)) (k : List Int) : List (List Int × Nat) :=
  m.filter (fun e => !fnEquiv e.1 k)

/-- `pnodes_new_elem.emplace(fn, pelem_id)`: insert only when no equivalent
key is present. -/
def faceMapEmplace (m : List (List Int × Nat)) (k : List Int) (v : Nat) :
    List (List Int × Nat) :=
  if (faceMapFind m k).isSome then m else m ++ [(k, v)]

/-- The map re-key of pncsubmesh.cpp lines 329-331: erase the entry under
the old representative tuple, re-insert the element id under the new one. -/
def rekeyFaceMap (m : List (List Int × Nat)) (oldK newK : List Int) (v : Nat) :
    List (List Int × Nat) :=
  faceMapEmplace (faceMapErase m oldK) newK v

/-- NCMesh::Element as consumed by the boundary extraction pass. In the C++
struct (ncmesh.hpp, declared outside the sampled sources) the node and
child arrays share a union; here they are separate fields, with the
leaf-to-interior conversion of lines 305-312 clearing the child slots to -1
just as the source clears the shared storage. ref_type 0 marks a leaf. -/
structure Element where
  geom : GeomType
  attrib : Int
  rank : Int
  parent : Int
  child : List Int
  node : List Int
  ref_type : Nat
  deriving DecidableEq, Repr, Inhabited

/-- Modelled from the spec: `NCMesh::Element::IsLeaf` - an element is a leaf
exactly when it carries no refinement tag. -/
def Element.IsLeaf (e : Element) : Bool := e.ref_type == 0

/-- State carried by the reordering pass: the element array, the recorded
parent face ids (`parent_element_ids_`), the per-element parent-face node
tuples (`new_elem_to_parent_face_nodes`), and the inverse element map. -/
structure RState where
  elements : List Element
  pids : List Int
  fns : List (List Int)
  inv : List (Int × Nat)
  deriving DecidableEq, Repr, Inhabited

/-- The comparator `comp_elements` (pncsubmesh.cpp lines 378-392): elements
with equal parents compare by std::lexicographical_compare of their recorded
parent-face node tuples, otherwise by parent id. -/
def comp_elements (s : RState) (l r : Nat) : Bool :=
  let el := s.elements.getD l default
  let er := s.elements.getD r default
  if el.parent = er.parent then lexLt (s.fns.getD l []) (s.fns.getD r [])
  else decide (el.parent < er.parent)

/-- std::is_sorted over a list of indices: no adjacent pair is inverted. -/
def isSortedBy (comp : Nat → Nat → Bool) : List Nat → Bool
  | [] => true
  | [_] => true
  | x :: y :: rest => !comp y x && isSortedBy comp (y :: rest)

/-- `parental_sorted` (pncsubmesh.cpp lines 394-400): iota indices checked
with std::is_sorted under comp_elements. -/
def parental_sorted (s : RState) : Bool :=
  isSortedBy (comp_elements s) (List.range s.elements.length)

/-- One step of a stable insertion: the moving index passes strictly smaller
entries and lands before the first entry not below it, so equal keys keep
their original relative order - the characterizing property of
std::stable_sort. -/
def insertIdx (comp : Nat → Nat → Bool) (x : Nat) : List Nat → List Nat
  | [] => [x]
  | y :: ys => if comp y x then y :: insertIdx comp x ys else x :: y :: ys

/-- Stable sort of the index array `new_to_old` (pncsubmesh.cpp lines
444-446), realized as insertion sort, which is stable and agrees with
std::stable_sort on every strict weak order. -/
def stableSortIdx (comp : Nat → Nat → Bool) : List Nat → List Nat
  | [] => []
  | x :: xs => insertIdx comp x (stableSortIdx comp xs)

/-- Modelled from the spec: `SubMeshUtils::Permute` (submesh_utils, not
under src/) applies the sorted index array so that position i of the
permuted container holds entry new_to_old[i] of the old one - the
convention forced by the inverse map old_to_new built at lines 449-452 and
used to remap child and parent indices. -/
def permuteBy {α : Type} (perm : List Nat) (xs : List α) (d : α) : List α :=
  perm.map (fun j => xs.getD j d)

/-- std::numeric_limits of int, max(), the accumulator seed of line 470. -/
def intMax : Int := 2147483647

/-- The child loop of lines 471-475: visit child slots up to the first
negative one, remap each through old_to_new, and accumulate the minimum of
the current ranks of the visited children. Returns the updated slots and the
accumulated rank. -/
def remapChildren (otn : Nat → Nat) (els : List Element) :
    List Int → Int → (List Int × Int)
  | [], acc => ([], acc)
  | c :: cs, acc =>
    if 0 ≤ c then
      let nc := otn c.toNat
      let r := remapChildren otn els cs (min acc (els.getD nc default).rank)
      (Int.ofNat nc :: r.1, r.2)
    else (c :: cs, acc)

/-- Processing of one element in the sweep of lines 465-478: interior
elements remap their child slots and recompute rank from the array as it
stands mid-sweep; every element remaps its parent back-reference. -/
def sweepElem (otn : Nat → Nat) (els : List Element) (q : Nat) : List Element :=
  let e := els.getD q default
  let e1 :=
    if e.IsLeaf then e
    else
      let rc := remapChildren otn els e.child intMax
      { e with child := rc.1, rank := rc.2 }
  let e2 := { e1 with parent := if e1.parent = -1 then -1
                                else Int.ofNat (otn e1.parent.toNat) }
  els.set q e2

/-- The in-order sweep over the permuted element array (lines 465-478). -/
def sweep (otn : Nat → Nat) (els : List Element) : List Element :=
  (List.range els.length).foldl (sweepElem otn) els

/-- One iteration of the reordering loop body (lines 440-479): stable-sort
the index array, permute elements, parent ids and node tuples, rebuild the
inverse element map from the permuted parent ids, then sweep to remap
child/parent references and recompute interior ranks. -/
def reorderStep (s : RState) : RState :=
  let newToOld := stableSortIdx (comp_elements s) (List.range s.elements.length)
  let otn := fun j => List.indexOf j newToOld
  let els := permuteBy newToOld s.elements default
  let fns2 := permuteBy newToOld s.fns []
  let pids2 := permuteBy newToOld s.pids 0
  { elements := sweep otn els, pids := pids2, fns := fns2, inv := rebuildInv pids2 }

/-- The repeat-until-sorted loop (`while (!parental_sorted(elements))`,
line 440), with fuel; `none` models a run that has not finished within the
given fuel. -/
def reorderLoop : Nat → RState → Option RState
  | 0, s => if parental_sorted s then some s else none
  | fuel + 1, s => if parental_sorted s then some s else reorderLoop fuel (reorderStep s)

/-- Rank coherence after the pass: the rank of every interior element equals the
minimum (seeded, as in the source, with the int maximum) over the ranks of its
children, children being the slots up to the first negative entry. -/
def rankMinOk (s : RState) : Bool :=
  s.elements.all (fun e =>
    e.IsLeaf ||
      (((e.child.takeWhile (fun c => decide (0 ≤ c))).map
          (fun c => (s.elements.getD c.toNat default).rank)).foldl min intMax == e.rank))

/-- Equality of every Element field except the rank, the only field that
varies with the owning process. -/
def ElemSameShape (a b : Element) : Prop :=
  a.geom = b.geom ∧ a.attrib = b.attrib ∧ a.parent = b.parent ∧
  a.child = b.child ∧ a.node = b.node ∧ a.ref_type = b.ref_type

/-- Pointwise ElemSameShape plus equal length. -/
def ElsRel (els1 els2 : List Element) : Prop :=
  els1.length = els2.length ∧
  ∀ i, ElemSameShape (els1.getD i default) (els2.getD i default)

/-- Two reorder states agreeing on everything except element ranks. -/
def StateSameShape (s t : RState) : Prop :=
  s.elements.length = t.elements.length ∧
  (∀ i, ElemSameShape (s.elements.getD i default) (t.elements.getD i default)) ∧
  s.fns = t.fns ∧ s.pids = t.pids ∧ s.inv = t.inv

/-- A leaf boundary element (ref_type 0). -/
def mkLeafElem (p : Int) (r : Int) : Element :=
  { geom := GeomType.SQUARE, attrib := 1, rank := r, parent := p,
    child := [], node := [], ref_type := 0 }

/-- An interior boundary element (non-zero ref_type = split tag). -/
def mkIntElem (p : Int) (ch : List Int) (r : Int) : Element :=
  { geom := GeomType.SQUARE, attrib := 1, rank := r, parent := p,
    child := ch, node := [], ref_type := 1 }

/-- The all-zero parent-face node tuple: `new_elem_to_parent_face_nodes` is
declared value-initialized at line 349 and never written before the sort. -/
def zeroTuple : List Int := [0, 0, 0, 0]

/-- An already-sorted two-element state (one interior root, one leaf). -/
def demoSorted : RState :=
  { elements := [mkIntElem (-1) [1] 0, mkLeafElem 0 3],
    pids := [4, 9], fns := [zeroTuple, zeroTuple], inv := [] }

/-- An unsorted two-element state in discovery order: the leaf of a face
was created first, its synthesized root after it. -/
def c3s1 : RState :=
  { elements := [mkLeafElem 1 4, mkIntElem (-1) [0] 0],
    pids := [5, 3], fns := [zeroTuple, zeroTuple], inv := [] }

/-- The same state as c3s1 with both rank fields changed. -/
def c3s2 : RState :=
  { elements := [mkLeafElem 1 9, mkIntElem (-1) [0] 7],
    pids := [5, 3], fns := [zeroTuple, zeroTuple], inv := [] }

/-- Result of the reordering pass on c3s1. -/
def c3t1 : RState :=
  { elements := [mkIntElem (-1) [1] 4, mkLeafElem 0 4],
    pids := [3, 5], fns := [zeroTuple, zeroTuple], inv := [(3, 0), (5, 1)] }

/-- Result of the reordering pass on c3s2. -/
def c3t2 : RState :=
  { elements := [mkIntElem (-1) [1] 9, mkLeafElem 0 9],
    pids := [3, 5], fns := [zeroTuple, zeroTuple], inv := [(3, 0), (5, 1)] }

/-- A discovery-order boundary element forest reachable by the extraction
loop: four faces are processed; three create a leaf plus a fresh root
ancestor, the fourth creates a leaf plus an interior parent that attaches
to an existing root. Ranks of leaves are the adjacent volume element ranks;
the synthesized interior elements still carry rank 0, the value
the NCMesh::Element constructor leaves. -/
def c6InitA : RState :=
  { elements := [mkLeafElem 1 1, mkIntElem (-1) [0] 0, mkLeafElem 3 2,
                 mkIntElem (-1) [2, 7] 0, mkLeafElem 5 0, mkIntElem (-1) [4] 0,
                 mkLeafElem 7 2, mkIntElem 3 [6] 0],
    pids := [0, 1, 2, 3, 4, 5, 6, 7],
    fns := [zeroTuple, zeroTuple, zeroTuple, zeroTuple,
            zeroTuple, zeroTuple, zeroTuple, zeroTuple],
    inv := [] }

/-- A second discovery-order forest with the synthesized interior elements
carrying rank 99 instead, showing the effect does not depend on the
initial rank value of the constructor. -/
def c6InitB : RState :=
  { elements := [mkLeafElem 1 2, mkIntElem (-1) [0, 3] 99, mkLeafElem 3 0,
                 mkIntElem 1 [2, 6, 7] 99, mkLeafElem (-1) 2, mkLeafElem 6 0,
                 mkIntElem 3 [5] 99, mkLeafElem 3 2],
    pids := [0, 1, 2, 3, 4, 5, 6, 7],
    fns := [zeroTuple, zeroTuple, zeroTuple, zeroTuple,
            zeroTuple, zeroTuple, zeroTuple, zeroTuple],
    inv := [] }

/-- MaxElemChildren (ncmesh.hpp): capacity of the child slot array. -/
def MaxElemChildren : Nat := 10

/-- MaxElemNodes (ncmesh.hpp): capacity of the node array sharing the
union storage of the child array. -/
def MaxElemNodes : Nat := 8

/-- A parent-mesh face as consumed by the outer loop of the boundary pass
(lines 201-219), with the per-face data the loop reads precomputed:
the Unused flag, the attribute filter verdict, the master-face verdict,
whether the adjacent volume element is a triangle, whether the face list
leaves the face unrecognized, the node tuple FindFaceNodes returns, the two
adjacent element ranks (-1 for an absent side), and the index of the face in
`parent.faces`. -/
structure PFace where
  unused : Bool
  matched : Bool
  isMaster : Bool
  elemIsTri : Bool
  typeUnrecognized : Bool
  attrib : Int
  fn : List Int
  rank0 : Int
  rank1 : Int
  faceId : Int
  deriving DecidableEq, Repr, Inhabited

/-- State of the discovery loop: the element array, `parent_element_ids_`,
and the sorted-node-keyed map `pnodes_new_elem`. -/
structure BState where
  elements : List Element
  pids : List Int
  fmap : List (List Int × Nat)
  deriving DecidableEq, Repr, Inhabited

/-- The owning-rank lambda of lines 225-236: the rank of the surviving side, or
the minimum of the two when both volume elements exist. -/
def faceRank (rank0 rank1 : Int) : Int :=
  if rank0 < 0 then rank1
  else if rank1 < 0 then rank0
  else if rank0 < rank1 then rank0 else rank1

/-- Write the parent back-reference of an element. -/
def setElemParent (els : List Element) (q : Nat) (p : Int) : List Element :=
  els.set q { els.getD q default with parent := p }

/-- Lines 334-338: mark the parent as split (XY in 2D, X otherwise), wire
`parent.child[slot] = cur` and `cur.parent = parent`. -/
def wireParentChild (dim2 : Bool) (s : BState) (pelemId childSlot cur : Nat) : BState :=
  let pe := s.elements.getD pelemId default
  let els1 := s.elements.set pelemId
    { pe with ref_type := if dim2 then 3 else 1,
              child := pe.child.set childSlot (Int.ofNat cur) }
  let ce := els1.getD cur default
  { s with elements := els1.set cur { ce with parent := Int.ofNat pelemId } }

/-- Lines 305-312: a leaf rediscovered as a parent in the wrong orientation
has its node storage cleared to -1; since node and child share the union,
the child slots become -1 as well. -/
def clearLeafStorage (els : List Element) (q : Nat) : List Element :=
  els.set q { els.getD q default with
              node := List.replicate MaxElemNodes (-1),
              child := List.replicate MaxElemChildren (-1) }

/-- Lines 313-328: an interior parent rediscovered in the wrong orientation
has its child slots permuted by fixChildren. -/
def permuteInteriorChildren (els : List Element) (q : Nat)
    (pfnodes storedFn junk : List Int) : List Element :=
  els.set q { els.getD q default with
              child := fixChildren pfnodes storedFn (els.getD q default).child junk }

/-- A freshly added boundary-submesh element (AddElement of lines 222 and
284): geometry from the node pattern, the attribute of the face, constructor
defaults elsewhere, node/child union storage initialized to -1. -/
def freshElem (g : GeomType) (attr : Int) (nodes : List Int) : Element :=
  { geom := g, attrib := attr, rank := 0, parent := -1,
    child := List.replicate MaxElemChildren (-1), node := nodes, ref_type := 0 }

/-- The tree ascent of lines 269-344 with fuel. `pfn` is the oracle for
`parent.ParentFaceNodes` (none = root face; otherwise the coarser node
tuple and the child slot the fine face occupies), `ffid` the oracle for
`parent.faces.FindId`, `junk` the indeterminate contents of the local
child array read by the orientation fix. At each level: a root face gets
parent -1 and the ascent stops; an unseen coarser face is synthesized and
registered (appending exactly one parent face id); a known coarser face
discovered in a disagreeing node order (when the triangle central-child or
recognized-face condition holds) has its storage permuted and the map
re-keyed; the parent is then marked split and wired, and the ascent
continues only from a fresh or fixed parent. -/
def ascendLoop (pfn : List Int → Option (List Int × Nat)) (ffid : List Int → Int)
    (elemIsTri typeUnrec dim2 : Bool) (attr : Int) (junk : List Int) :
    Nat → BState → List Int → Nat → BState
  | 0, s, _, _ => s
  | fuel + 1, s, fn, cur =>
    match pfn fn with
    | none => { s with elements := setElemParent s.elements cur (-1) }
    | some (pfnodes, childSlot) =>
      match faceMapFind s.fmap pfnodes with
      | none =>
        let pelemId := s.elements.length
        let s1 : BState :=
          { elements := s.elements ++ [freshElem (face_geom_from_nodes pfnodes) attr []],
            pids := s.pids ++ [ffid pfnodes],
            fmap := s.fmap ++ [(pfnodes, pelemId)] }
        let s2 := wireParentChild dim2 s1 pelemId childSlot cur
        ascendLoop pfn ffid elemIsTri typeUnrec dim2 attr junk fuel s2 pfnodes pelemId
      | some (storedFn, pelemId) =>
        let needFix := ((elemIsTri && decide (childSlot ≠ 3)) || !typeUnrec)
            && !decide (pfnodes = storedFn)
        if needFix then
          let els2 := if (s.elements.getD pelemId default).IsLeaf
            then clearLeafStorage s.elements pelemId
            else permuteInteriorChildren s.elements pelemId pfnodes storedFn junk
          let s1 : BState := { elements := els2, pids := s.pids,
                               fmap := rekeyFaceMap s.fmap storedFn pfnodes pelemId }
          let s2 := wireParentChild dim2 s1 pelemId childSlot cur
          ascendLoop pfn ffid elemIsTri typeUnrec dim2 attr junk fuel s2 pfnodes pelemId
        else
          wireParentChild dim2 s pelemId childSlot cur

/-- One outer-loop iteration of the boundary pass (lines 201-345): skip
unused faces, faces failing the attribute filter, master faces, and faces
already reachable in the map; otherwise add the leaf element for the face
(recording its parent face id and rank and keying it in the map by its
node tuple) and run the ascent from it. -/
def boundaryFaceStep (pfn : List Int → Option (List Int × Nat))
    (ffid : List Int → Int) (dim2 : Bool) (junk : List Int) (fuel : Nat)
    (s : BState) (f : PFace) : BState :=
  if f.unused then s
  else if !f.matched || f.isMaster then s
  else if (faceMapFind s.fmap f.fn).isSome then s
  else
    let newId := s.elements.length
    let s1 : BState :=
      { elements := s.elements ++
          [{ freshElem (face_geom_from_nodes f.fn) f.attrib f.fn with
             rank := faceRank f.rank0 f.rank1 }],
        pids := s.pids ++ [f.faceId],
        fmap := s.fmap ++ [(f.fn, newId)] }
    ascendLoop pfn ffid f.elemIsTri f.typeUnrecognized dim2 f.attrib junk fuel s1 f.fn newId

/-- The whole discovery loop from the empty state. -/
def runBoundaryDiscovery (pfn : List Int → Option (List Int × Nat))
    (ffid : List Int → Int) (dim2 : Bool) (junk : List Int) (fuel : Nat)
    (faces : List PFace) : BState :=
  faces.foldl (boundaryFaceStep pfn ffid dim2 junk fuel)
    { elements := [], pids := [], fmap := [] }

/-- Pairwise distinctness of the recorded parent face ids, except for the
-1 entries recorded when `parent.faces.FindId` does not know an ancestor
face (line 287); -1 entries may repeat freely, matching the skip at line
460. -/
def DistinctNonNeg (pids : List Int) : Prop :=
  ∀ k1, k1 < pids.length → ∀ k2, k2 < pids.length →
    pids.getD k1 0 ≠ -1 → pids.getD k1 0 = pids.getD k2 0 → k1 = k2

/-- `std::map` key uniqueness for `pnodes_new_elem`: no two entries carry
equivalent (same sorted contents) node tuples. -/
def KeysUnique (m : List (List Int × Nat)) : Prop :=
  ∀ e1, e1 ∈ m → ∀ e2, e2 ∈ m → fnEquiv e1.1 e2.1 = true → e1 = e2

/-- Every non-(-1) recorded parent face id is the FindId of the node tuple
keyed in `pnodes_new_elem` to the element it was recorded for. -/
def PidsWitnessed (ffid : List Int → Int) (s : BState) : Prop :=
  ∀ k, k < s.pids.length → s.pids.getD k 0 ≠ -1 →
    ∃ t, (t, k) ∈ s.fmap ∧ ffid t = s.pids.getD k 0

/-- The discovery-loop invariant behind the element identity maps: element
and parent-id arrays in lockstep, map keys pairwise non-equivalent, and
each non-(-1) parent face id witnessed by its map entry. -/
def C1Inv (ffid : List Int → Int) (s : BState) : Prop :=
  s.elements.length = s.pids.length ∧ KeysUnique s.fmap ∧ PidsWitnessed ffid s

/-- A boundary face of the parent mesh with node tuple (1,2,3,4) and face
id 5, used to exhibit a -1 parent face id. -/
def c1Face : PFace :=
  { unused := false, matched := true, isMaster := false, elemIsTri := false,
    typeUnrecognized := true, attrib := 1, fn := [1, 2, 3, 4],
    rank0 := 0, rank1 := -1, faceId := 5 }

/-- ParentFaceNodes oracle: the face (1,2,3,4) has the coarser face
(1,2,9,10) above it (child slot 0), which is itself a root. -/
def c1Pfn : List Int → Option (List Int × Nat) :=
  fun t => if t = [1, 2, 3, 4] then some ([1, 2, 9, 10], 0) else none

/-- faces.FindId oracle: only the processed face (1,2,3,4) exists in the
parent face table (id 5); the coarser ancestor face does not, so FindId
returns -1 for it - the situation of a refined boundary whose coarse face
has no surviving Face record. -/
def c1Ffid : List Int → Int :=
  fun t => if fnEquiv t [1, 2, 3, 4] then 5 else -1

/-! ## Theorems -/

theorem alookup_append_of_isSome (l1 l2 : List (Int × Nat)) (k : Int)
    (h : (alookup l1 k).isSome) : alookup (l1 ++ l2) k = alookup l1 k := by
  induction l1 with
  | nil => simp [alookup] at h
  | cons e es ih =>
    by_cases he : e.1 = k
    · simp [alookup, he]
    · simp only [List.cons_append, alookup, if_neg he]
      exact ih (by simpa [alookup, if_neg he] using h)

theorem alookup_append_right (l1 l2 : List (Int × Nat)) (k : Int)
    (h : alookup l1 k = none) : alookup (l1 ++ l2) k = alookup l2 k := by
  induction l1 with
  | nil => simp [alookup]
  | cons e es ih =>
    by_cases he : e.1 = k
    · simp [alookup, he] at h
    · simp only [List.cons_append, alookup, if_neg he]
      exact ih (by simpa [alookup, if_neg he] using h)

theorem alookup_eq_none_iff (l : List (Int × Nat)) (k : Int) :
    alookup l k = none ↔ k ∉ l.map Prod.fst := by
  induction l with
  | nil => simp [alookup]
  | cons e es ih =>
    by_cases he : e.1 = k <;> simp [alookup, he, ih, eq_comm (a := k)]

theorem alookup_zip_range_aux (l : List Int) (hl : l.Nodup) :
    ∀ (s i : Nat), i < l.length →
      alookup (l.zip (List.range' s l.length)) (l.getD i 0) = some (s + i) := by
  induction l with
  | nil => intro s i hi; simp at hi
  | cons a as ih =>
    intro s i hi
    rw [show (a :: as).length = as.length + 1 from rfl, List.range']
    rw [List.zip_cons_cons]
    cases i with
    | zero => simp [alookup]
    | succ i =>
      have hi' : i < as.length := by simpa using hi
      have hmem : as.getD i 0 ∈ as := by
        rw [List.getD_eq_getElem as 0 hi']; exact List.getElem_mem hi'
      have hne : a ≠ as.getD i 0 := fun hEq => (List.nodup_cons.1 hl).1 (hEq ▸ hmem)
      rw [List.getD_cons_succ]
      simp only [alookup, if_neg hne]
      rw [ih (List.nodup_cons.1 hl).2 (s + 1) i hi']
      congr 1
      omega

theorem alookup_zip_range (l : List Int) (hl : l.Nodup) (i : Nat) (hi : i < l.length) :
    alookup (l.zip (List.range l.length)) (l.getD i 0) = some i := by
  have h := alookup_zip_range_aux l hl 0 i hi
  rw [List.range_eq_range']
  simpa using h

theorem getD_not_mem_take (l : List Int) (hl : l.Nodup) (k : Nat) (hk : k < l.length) :
    l.getD k 0 ∉ l.take k := by
  intro hmem
  obtain ⟨j, hj, hget⟩ := List.mem_iff_getElem.1 hmem
  have hjk : j < k := by
    have := List.length_take k l
    omega
  have hjl : j < l.length := lt_of_lt_of_le hjk (le_of_lt hk)
  have hEq : l.getD j 0 = l.getD k 0 := by
    rw [List.getD_eq_getElem l 0 hjl, List.getD_eq_getElem l 0 hk]
    rw [List.getD_eq_getElem l 0 hk] at hget
    rw [← hget]
    exact (List.getElem_take l).symm
  rw [List.getD_eq_getElem l 0 hjl, List.getD_eq_getElem l 0 hk] at hEq
  exact absurd ((hl.getElem_inj_iff).1 hEq) (by omega)

theorem uigInv_empty : UigInv uigEmpty := by
  constructor <;> simp [uigEmpty]

theorem uigInv_step (s : UniqueIndexGenerator) (p : Int) (h : UigInv s) :
    UigInv (uigGet s p).2.2 := by
  unfold uigGet
  cases hl : alookup s.idx p with
  | some v => exact h
  | none =>
    refine ⟨?_, ?_⟩
    · simp [h.1, List.range_succ]
    · have hp : p ∉ s.idx.map Prod.fst := (alookup_eq_none_iff _ _).1 hl
      simp only [List.map_append, List.map_cons, List.map_nil, List.nodup_append]
      refine ⟨h.2, List.nodup_singleton p, ?_⟩
      intro a ha hpa
      rw [List.mem_singleton] at hpa
      exact hp (hpa ▸ ha)

theorem uigRun_inv_aux (l : List Int) :
    ∀ s, UigInv s → UigInv (l.foldl (fun s p => (uigGet s p).2.2) s) := by
  induction l with
  | nil => intro s h; exact h
  | cons p ps ih => intro s h; exact ih _ (uigInv_step s p h)

theorem uigRun_inv (trace : List Int) : UigInv (uigRun trace) :=
  uigRun_inv_aux trace uigEmpty uigInv_empty

theorem uig_counter_eq_length (s : UniqueIndexGenerator) (h : UigInv s) :
    s.counter = s.idx.length := by
  have hlen := congrArg List.length h.1
  simpa using hlen.symm

theorem uigRun_append (trace : List Int) (q : Int) :
    uigRun (trace ++ [q]) = (uigGet (uigRun trace) q).2.2 := by
  unfold uigRun
  rw [List.foldl_append]
  rfl

/-- C8: the identity registry contract. On a yet-unseen parent id, Get
allocates the next unused contiguous submesh id (equal to the number of ids
already handed out, which are exactly 0..n-1 in first-touch order) and
reports is_new = true; on a known parent id it returns the stored id with
is_new = false leaving the registry untouched; and a registered id is never
removed by any later call. -/
theorem C8_registry_first_touch_contract (trace : List Int) (p : Int) :
    (alookup (uigRun trace).idx p = none →
       uigGet (uigRun trace) p =
         ((uigRun trace).idx.length, true,
          { idx := (uigRun trace).idx ++ [(p, (uigRun trace).idx.length)],
            counter := (uigRun trace).idx.length + 1 }) ∧
       (uigRun trace).idx.map Prod.snd = List.range (uigRun trace).idx.length) ∧
    (∀ v, alookup (uigRun trace).idx p = some v →
       uigGet (uigRun trace) p = (v, false, uigRun trace)) ∧
    (∀ q, (alookup (uigRun trace).idx p).isSome →
       (alookup (uigRun (trace ++ [q])).idx p).isSome) := by
  have hinv := uigRun_inv trace
  have hc := uig_counter_eq_length _ hinv
  refine ⟨?_, ?_, ?_⟩
  · intro hnone
    constructor
    · unfold uigGet
      rw [hnone, ← hc]
    · rw [← hc]; exact hinv.1
  · intro v hsome
    unfold uigGet
    rw [hsome]
  · intro q hsome
    rw [uigRun_append]
    unfold uigGet
    cases hq : alookup (uigRun trace).idx q with
    | some v => exact hsome
    | none =>
      have := alookup_append_of_isSome (uigRun trace).idx [(q, (uigRun trace).counter)] p hsome
      simpa [this] using hsome

/-- Witness for C8 at the concrete trace [4, 9, 4]: parent id 2 is new and
receives the next id 2; parent id 9 is known with id 1 and an unchanged
registry; id 9 survives a further request. -/
theorem C8_registry_first_touch_contract_witness :
    uigGet (uigRun [4, 9, 4]) 2 =
      (2, true, { idx := [(4, 0), (9, 1), (2, 2)], counter := 3 }) ∧
    uigGet (uigRun [4, 9, 4]) 9 = (1, false, uigRun [4, 9, 4]) ∧
    (alookup (uigRun ([4, 9, 4] ++ [7])).idx 9).isSome :=
  ⟨(((C8_registry_first_touch_contract [4, 9, 4] 2).1 (by decide)).1).trans (by decide),
   (C8_registry_first_touch_contract [4, 9, 4] 9).2.1 1 (by decide),
   (C8_registry_first_touch_contract [4, 9, 4] 9).2.2 7 (by decide)⟩

theorem idInv_empty : IdInv idMapsEmpty := by
  refine ⟨rfl, by simp [idMapsEmpty], List.nodup_nil, rfl⟩

theorem idRegister_known (s : IdMaps) (p : Int) (v : Nat)
    (hl : alookup s.gen.idx p = some v) : idRegister s p = s := by
  unfold idRegister uigGet
  rw [hl]
  rfl

theorem idRegister_new (s : IdMaps) (p : Int)
    (hl : alookup s.gen.idx p = none) :
    idRegister s p =
      { gen := { idx := s.gen.idx ++ [(p, s.gen.counter)],
                 counter := s.gen.counter + 1 },
        ids := s.ids ++ [p], inv := mapSet s.inv p s.gen.counter } := by
  unfold idRegister uigGet
  rw [hl]
  rfl

theorem idInv_step (s : IdMaps) (p : Int) (h : IdInv s) : IdInv (idRegister s p) := by
  obtain ⟨hgi, hzip, hnd, hcnt⟩ := h
  cases hl : alookup s.gen.idx p with
  | some v => rw [idRegister_known s p v hl]; exact ⟨hgi, hzip, hnd, hcnt⟩
  | none =>
    have hpm : p ∉ s.gen.idx.map Prod.fst := (alookup_eq_none_iff _ _).1 hl
    have hfst : s.inv.map Prod.fst = s.ids := by
      rw [hzip]; exact List.map_fst_zip _ _ (by simp)
    have hpids : p ∉ s.ids := by
      rw [← hfst, ← hgi]; exact hpm
    have hinvl : alookup s.inv p = none := by
      rw [← hgi]; exact hl
    have hms : mapSet s.inv p s.gen.counter = s.inv ++ [(p, s.gen.counter)] := by
      unfold mapSet
      rw [hinvl]
      rfl
    rw [idRegister_new s p hl]
    refine ⟨?_, ?_, ?_, ?_⟩
    · rw [hms, hgi]
    · rw [hms, hzip, hcnt]
      show _ = (s.ids ++ [p]).zip (List.range (s.ids ++ [p]).length)
      rw [List.length_append, List.length_singleton,
        show s.ids.length + 1 = Nat.succ s.ids.length from rfl, List.range_succ,
        List.zip_append (by simp)]
      rfl
    · show (s.ids ++ [p]).Nodup
      rw [List.nodup_append]
      refine ⟨hnd, List.nodup_singleton p, ?_⟩
      intro a ha hpa
      rw [List.mem_singleton] at hpa
      exact hpids (hpa ▸ ha)
    · show s.gen.counter + 1 = (s.ids ++ [p]).length
      rw [List.length_append, List.length_singleton, hcnt]

theorem idMapsRun_inv_aux (l : List Int) :
    ∀ s, IdInv s → IdInv (l.foldl idRegister s) := by
  induction l with
  | nil => intro s h; exact h
  | cons p ps ih => intro s h; exact ih _ (idInv_step s p h)

theorem idMapsRun_inv (trace : List Int) : IdInv (idMapsRun trace) :=
  idMapsRun_inv_aux trace idMapsEmpty idInv_empty

theorem rebuildInv_take (pids : List Int) (hnd : pids.Nodup)
    (hne : ∀ x ∈ pids, x ≠ -1) :
    ∀ k, k ≤ pids.length →
      (List.range k).foldl
        (fun m i => if pids.getD i 0 = -1 then m else mapSet m (pids.getD i 0) i) []
      = (pids.take k).zip (List.range' 0 k) := by
  intro k
  induction k with
  | zero => intro _; simp
  | succ k ih =>
    intro hk
    have hk' : k < pids.length := hk
    have hkd : pids.getD k 0 = pids.get ⟨k, hk'⟩ := by
      rw [List.getD_eq_getElem pids 0 hk']; rfl
    have hkne : pids.getD k 0 ≠ -1 := by
      refine hne _ ?_
      rw [List.getD_eq_getElem pids 0 hk']; exact List.getElem_mem hk'
    rw [List.range_succ, List.foldl_append, ih (le_of_lt hk')]
    simp only [List.foldl_cons, List.foldl_nil, if_neg hkne]
    have hkeys : ((pids.take k).zip (List.range' 0 k)).map Prod.fst = pids.take k := by
      refine List.map_fst_zip _ _ ?_
      rw [List.length_take, List.length_range']
      omega
    have hnone : alookup ((pids.take k).zip (List.range' 0 k)) (pids.getD k 0) = none := by
      rw [alookup_eq_none_iff, hkeys]
      exact getD_not_mem_take pids hnd k hk'
    rw [mapSet, hnone]
    simp only [Option.isSome_none, Bool.false_eq_true, if_false]
    have htake : pids.take (k + 1) = pids.take k ++ [pids.getD k 0] := by
      rw [List.getD_eq_getElem pids 0 hk']
      rw [← List.take_concat_get pids k hk']
      simp [List.concat_eq_append]
    rw [htake, show List.range' 0 (k + 1) = List.range' 0 k ++ [k] from by
      simp [List.range'_concat]]
    rw [List.zip_append (by rw [List.length_take, List.length_range']; omega)]
    simp

theorem rebuildInv_eq_zip (pids : List Int) (hnd : pids.Nodup)
    (hne : ∀ x ∈ pids, x ≠ -1) :
    rebuildInv pids = pids.zip (List.range pids.length) := by
  unfold rebuildInv
  rw [rebuildInv_take pids hnd hne pids.length (le_refl _)]
  simp [List.range_eq_range']

theorem mem_setInsert_self (s : List Int) (x : Int) : x ∈ setInsert s x := by
  induction s with
  | nil => simp [setInsert]
  | cons y ys ih =>
    by_cases hlt : x < y
    · simp [setInsert, hlt]
    · by_cases heq : x = y
      · simp [setInsert, hlt, heq]
      · simp only [setInsert, if_neg hlt, if_neg heq]
        exact List.mem_cons_of_mem y ih

theorem mem_setInsert_of_mem (s : List Int) (x z : Int) (h : z ∈ s) :
    z ∈ setInsert s x := by
  induction s with
  | nil => simp at h
  | cons y ys ih =>
    by_cases hlt : x < y
    · simp only [setInsert, if_pos hlt]
      exact List.mem_cons_of_mem x h
    · by_cases heq : x = y
      · simpa [setInsert, hlt, heq] using h
      · simp only [setInsert, if_neg hlt, if_neg heq]
        rcases List.mem_cons.1 h with hz | hz
        · exact hz ▸ List.mem_cons_self y _
        · exact List.mem_cons_of_mem y (ih hz)

theorem mem_foldl_setInsert_of_mem_acc (l : List Int) :
    ∀ acc z, z ∈ acc → z ∈ l.foldl setInsert acc := by
  induction l with
  | nil => intro acc z h; exact h
  | cons x xs ih =>
    intro acc z h
    exact ih _ z (mem_setInsert_of_mem acc x z h)

theorem mem_foldl_setInsert_of_mem (l : List Int) :
    ∀ acc z, z ∈ l → z ∈ l.foldl setInsert acc := by
  induction l with
  | nil => intro acc z h; simp at h
  | cons x xs ih =>
    intro acc z h
    rcases List.mem_cons.1 h with hz | hz
    · exact mem_foldl_setInsert_of_mem_acc xs _ z (hz ▸ mem_setInsert_self acc x)
    · exact ih _ z hz

theorem mem_foldl_setInsert_pairs_of_mem_acc (findId : Int → Int → Int)
    (pe : PElem) (l : List (Nat × Nat)) :
    ∀ acc z, z ∈ acc →
      z ∈ l.foldl
        (fun a e => setInsert a (findId (pe.node.getD e.1 0) (pe.node.getD e.2 0))) acc := by
  induction l with
  | nil => intro acc z h; exact h
  | cons e es ih =>
    intro acc z h
    exact ih _ z (mem_setInsert_of_mem acc _ z h)

theorem collectNewNodes_step_mono (findId : Int → Int → Int) (attrs : List Int)
    (pe : PElem) (acc : List Int) (z : Int) (h : z ∈ acc) :
    z ∈ (if hasAttribute attrs pe.attrib then
           if pe.leaf then
             (pe.edges.foldl
               (fun a e => setInsert a (findId (pe.node.getD e.1 0) (pe.node.getD e.2 0)))
               (pe.node.foldl setInsert acc))
           else acc
         else acc) := by
  by_cases ha : hasAttribute attrs pe.attrib
  · by_cases hlf : pe.leaf
    · simp only [if_pos ha, if_pos hlf]
      exact mem_foldl_setInsert_pairs_of_mem_acc findId pe pe.edges _ z
        (mem_foldl_setInsert_of_mem_acc pe.node acc z h)
    · simpa [ha, hlf] using h
  · simpa [ha] using h

theorem collectNewNodes_foldl_mono (findId : Int → Int → Int) (attrs : List Int)
    (qs : List PElem) :
    ∀ acc z, z ∈ acc →
      z ∈ qs.foldl (fun acc pe =>
        if hasAttribute attrs pe.attrib then
          if pe.leaf then
            (pe.edges.foldl
              (fun a e => setInsert a (findId (pe.node.getD e.1 0) (pe.node.getD e.2 0)))
              (pe.node.foldl setInsert acc))
          else acc
        else acc) acc := by
  induction qs with
  | nil => intro acc z h; exact h
  | cons r rs ih =>
    intro acc z h
    simp only [List.foldl_cons]
    exact ih _ z (collectNewNodes_step_mono findId attrs r acc z h)

theorem collectNewNodes_mem_aux (findId : Int → Int → Int) (attrs : List Int)
    (pes : List PElem) :
    ∀ acc pe n, pe ∈ pes → hasAttribute attrs pe.attrib = true → pe.leaf = true →
      n < pe.node.length →
      pe.node.getD n 0 ∈ pes.foldl (fun acc pe =>
        if hasAttribute attrs pe.attrib then
          if pe.leaf then
            (pe.edges.foldl
              (fun a e => setInsert a (findId (pe.node.getD e.1 0) (pe.node.getD e.2 0)))
              (pe.node.foldl setInsert acc))
          else acc
        else acc) acc := by
  induction pes with
  | nil => intro acc pe n h; simp at h
  | cons q qs ih =>
    intro acc pe n hmem hattr hleaf hn
    rcases List.mem_cons.1 hmem with hq | hq
    · subst hq
      simp only [List.foldl_cons]
      have hx : pe.node.getD n 0 ∈ pe.node := by
        rw [List.getD_eq_getElem pe.node 0 hn]; exact List.getElem_mem hn
      have hstep : pe.node.getD n 0 ∈
          (pe.edges.foldl
            (fun a e => setInsert a (findId (pe.node.getD e.1 0) (pe.node.getD e.2 0)))
            (pe.node.foldl setInsert acc)) :=
        mem_foldl_setInsert_pairs_of_mem_acc findId pe pe.edges _ _
          (mem_foldl_setInsert_of_mem pe.node acc _ hx)
      rw [if_pos hattr, if_pos hleaf]
      exact collectNewNodes_foldl_mono findId attrs qs _ _ hstep
    · simp only [List.foldl_cons]
      exact ih _ pe n hq hattr hleaf hn

theorem collectNewNodes_mem (findId : Int → Int → Int) (attrs : List Int)
    (pes : List PElem) (pe : PElem) (n : Nat) (hmem : pe ∈ pes)
    (hattr : hasAttribute attrs pe.attrib = true) (hleaf : pe.leaf = true)
    (hn : n < pe.node.length) :
    pe.node.getD n 0 ∈ collectNewNodes findId attrs pes :=
  collectNewNodes_mem_aux findId attrs pes [] pe n hmem hattr hleaf hn

theorem idRegister_lookup_mono (s : IdMaps) (q x : Int)
    (h : (alookup s.gen.idx x).isSome) :
    (alookup (idRegister s q).gen.idx x).isSome := by
  cases hl : alookup s.gen.idx q with
  | some v => rw [idRegister_known s q v hl]; exact h
  | none =>
    rw [idRegister_new s q hl]
    simpa [alookup_append_of_isSome s.gen.idx [(q, s.gen.counter)] x h] using h

theorem idRegister_lookup_self (s : IdMaps) (x : Int) :
    (alookup (idRegister s x).gen.idx x).isSome := by
  cases hl : alookup s.gen.idx x with
  | some v => rw [idRegister_known s x v hl]; simp [hl]
  | none =>
    rw [idRegister_new s x hl]
    have := alookup_append_right s.gen.idx [(x, s.gen.counter)] x hl
    simp [this, alookup]

theorem foldl_idRegister_lookup_mono (l : List Int) :
    ∀ s x, (alookup s.gen.idx x).isSome →
      (alookup (l.foldl idRegister s).gen.idx x).isSome := by
  induction l with
  | nil => intro s x h; exact h
  | cons q qs ih =>
    intro s x h
    exact ih _ x (idRegister_lookup_mono s q x h)

theorem foldl_idRegister_lookup_of_mem (l : List Int) :
    ∀ s x, x ∈ l → (alookup (l.foldl idRegister s).gen.idx x).isSome := by
  induction l with
  | nil => intro s x h; simp at h
  | cons q qs ih =>
    intro s x h
    rcases List.mem_cons.1 h with hx | hx
    · exact foldl_idRegister_lookup_mono qs _ x (hx ▸ idRegister_lookup_self s q)
    · exact ih _ x hx

/-- C9: in the second element walk of the domain pass, translating a vertex node id of a matched
leaf through the registry is never new: the first walk
inserted all vertex node ids of every matched leaf into `new_nodes`, all of which
were registered before the walk (lines 84-95), and any interleaved edge-node
registrations of the walk itself (trace t) only add entries, so the Get of
lines 119-125 always hits and its assertion branch is unreachable. -/
theorem C9_second_walk_vertex_nodes_not_new (findId : Int → Int → Int)
    (attrs : List Int) (pes : List PElem) (pe : PElem) (n : Nat) (t : List Int)
    (hmem : pe ∈ pes) (hattr : hasAttribute attrs pe.attrib = true)
    (hleaf : pe.leaf = true) (hn : n < pe.node.length) :
    (uigGet ((collectNewNodes findId attrs pes ++ t).foldl idRegister idMapsEmpty).gen
       (pe.node.getD n 0)).2.1 = false := by
  have hx := collectNewNodes_mem findId attrs pes pe n hmem hattr hleaf hn
  have hs : (alookup ((collectNewNodes findId attrs pes ++ t).foldl idRegister
      idMapsEmpty).gen.idx (pe.node.getD n 0)).isSome := by
    rw [List.foldl_append]
    exact foldl_idRegister_lookup_mono t _ _
      (foldl_idRegister_lookup_of_mem _ _ _ hx)
  unfold uigGet
  cases hl : alookup ((collectNewNodes findId attrs pes ++ t).foldl idRegister
      idMapsEmpty).gen.idx (pe.node.getD n 0) with
  | some v => rfl
  | none => rw [hl] at hs; simp at hs

/-- Witness for C9 at a one-element parent mesh with attribute filter
containing 1 and one interleaved edge registration. -/
theorem C9_second_walk_vertex_nodes_not_new_witness :
    (uigGet ((collectNewNodes (fun a b => a + b) [1]
        [{ attrib := 1, leaf := true, node := [3, 5], edges := [(0, 1)] }] ++ [2]).foldl
        idRegister idMapsEmpty).gen
      (({ attrib := 1, leaf := true, node := [3, 5], edges := [(0, 1)] } : PElem).node.getD 0 0)).2.1
      = false :=
  C9_second_walk_vertex_nodes_not_new (fun a b => a + b) [1]
    [{ attrib := 1, leaf := true, node := [3, 5], edges := [(0, 1)] }]
    { attrib := 1, leaf := true, node := [3, 5], edges := [(0, 1)] } 0 [2]
    (by decide) (by decide) (by decide) (by decide)

theorem lexLt_self_false (a : List Int) : lexLt a a = false := by
  induction a with
  | nil => rfl
  | cons x xs ih => simp [lexLt, ih]

theorem eq_of_lexLt_false_false (a b : List Int)
    (hab : lexLt a b = false) (hba : lexLt b a = false) : a = b := by
  induction a generalizing b with
  | nil =>
    cases b with
    | nil => rfl
    | cons y ys => simp [lexLt] at hab
  | cons x xs ih =>
    cases b with
    | nil => simp [lexLt] at hba
    | cons y ys =>
      by_cases hxy : x < y
      · simp [lexLt, hxy] at hab
      · by_cases hyx : y < x
        · simp [lexLt, hyx, not_lt_of_lt hyx] at hba
        · have hxe : x = y := le_antisymm (not_lt.1 hyx) (not_lt.1 hxy)
          subst hxe
          simp only [lexLt, if_neg hxy, if_neg hyx] at hab hba
          rw [ih ys hab hba]

theorem fnEquiv_iff_sortNodes_eq (a b : List Int) :
    fnEquiv a b = true ↔ sortNodes a = sortNodes b := by
  constructor
  · intro h
    have h1 : fnLt a b = false := by
      by_cases hc : fnLt a b
      · simp [fnEquiv, hc] at h
      · simpa using hc
    have h2 : fnLt b a = false := by
      by_cases hc : fnLt b a
      · simp [fnEquiv, hc] at h
      · simpa using hc
    exact eq_of_lexLt_false_false _ _ h1 h2
  · intro h
    have h1 : fnLt a b = false := by unfold fnLt; rw [h]; exact lexLt_self_false _
    have h2 : fnLt b a = false := by unfold fnLt; rw [h]; exact lexLt_self_false _
    simp [fnEquiv, h1, h2]

theorem sortNodes_eq_of_perm (a b : List Int) (h : a.Perm b) :
    sortNodes a = sortNodes b := by
  unfold sortNodes
  exact List.eq_of_perm_of_sorted
    (((List.perm_insertionSort _ a).trans h).trans (List.perm_insertionSort _ b).symm)
    (List.sorted_insertionSort _ a) (List.sorted_insertionSort _ b)

theorem getD_set_self_int (l : List Int) (i : Nat) (a : Int) (h : i < l.length) :
    (l.set i a).getD i 0 = a := by
  rw [List.getD_eq_getD_get?, List.get?_eq_getElem?, List.getElem?_set_self h]
  rfl

theorem getD_set_ne_int (l : List Int) (i j : Nat) (a : Int) (h : i ≠ j) :
    (l.set i a).getD j 0 = l.getD j 0 := by
  rw [List.getD_eq_getD_get?, List.get?_eq_getElem?, List.getElem?_set_ne h,
    List.getD_eq_getD_get?, List.get?_eq_getElem?]

theorem foldl_condSet_getD (pos : Nat → Nat) (val : Nat → Int) (bound : Nat) :
    ∀ (is2 : List Nat) (init : List Int) (iStar : Nat),
      is2.Nodup → iStar ∈ is2 → pos iStar < bound → pos iStar < init.length →
      (∀ j, j ∈ is2 → pos j = pos iStar → j = iStar) →
      ((is2.foldl
          (fun acc i => if pos i < bound then acc.set (pos i) (val i) else acc)
          init).getD (pos iStar) 0) = val iStar := by
  intro is2
  induction is2 with
  | nil => intro init iStar _ h; simp at h
  | cons i is ih =>
    intro init iStar hnd hmem hb hlen huniq
    rcases List.mem_cons.1 hmem with hi | hi
    · subst hi
      simp only [List.foldl_cons, if_pos hb]
      have hrest : ∀ j, j ∈ is → pos j ≠ pos iStar := by
        intro j hj hEq
        have := huniq j (List.mem_cons_of_mem _ hj) hEq
        subst this
        exact (List.nodup_cons.1 hnd).1 hj
      have huntouched : ∀ (is3 : List Nat) (acc : List Int),
          (∀ j, j ∈ is3 → pos j ≠ pos iStar) →
          ((is3.foldl
              (fun acc i => if pos i < bound then acc.set (pos i) (val i) else acc)
              acc).getD (pos iStar) 0) = acc.getD (pos iStar) 0 := by
        intro is3
        induction is3 with
        | nil => intro acc _; rfl
        | cons j js ihj =>
          intro acc hne
          simp only [List.foldl_cons]
          by_cases hjb : pos j < bound
          · rw [if_pos hjb, ihj _ (fun r hr => hne r (List.mem_cons_of_mem _ hr))]
            exact getD_set_ne_int acc (pos j) (pos iStar) (val j)
              (hne j (List.mem_cons_self _ _))
          · rw [if_neg hjb, ihj _ (fun r hr => hne r (List.mem_cons_of_mem _ hr))]
      rw [huntouched is _ hrest]
      exact getD_set_self_int init (pos iStar) (val iStar) hlen
    · have hne : pos i ≠ pos iStar := by
        intro hEq
        have := huniq i (List.mem_cons_self _ _) hEq
        subst this
        exact (List.nodup_cons.1 hnd).1 hi
      simp only [List.foldl_cons]
      by_cases hib : pos i < bound
      · rw [if_pos hib]
        exact ih _ iStar (List.nodup_cons.1 hnd).2 hi hb
          (by rw [List.length_set]; exact hlen)
          (fun j hj => huniq j (List.mem_cons_of_mem _ hj))
      · rw [if_neg hib]
        exact ih _ iStar (List.nodup_cons.1 hnd).2 hi hb hlen
          (fun j hj => huniq j (List.mem_cons_of_mem _ hj))

/-- C5 counterexample: the stored tuple (0,1,2,3) rediscovered in the
rotated order (1,2,3,0), previously wired children (10,20,30,40). For node
value 0, the claim requires the child at the slot of 0 under the NEW order
(slot 3) to equal the child previously at the slot of 0 under the OLD order
(slot 0, child 10); the code writes 30 there. -/
theorem C5_child_slot_fix_counterexample :
    fixChildren [1, 2, 3, 0] [0, 1, 2, 3] [10, 20, 30, 40] [-7, -7, -7, -7]
      = [40, 10, 20, 30] ∧
    ¬ ((fixChildren [1, 2, 3, 0] [0, 1, 2, 3] [10, 20, 30, 40] [-7, -7, -7, -7]).getD
        (List.indexOf 0 ([1, 2, 3, 0] : List Int)) 0
      = ([10, 20, 30, 40] : List Int).getD (List.indexOf 0 ([0, 1, 2, 3] : List Int)) 0) := by
  decide

/-- C5 amended: the code applies the transposed relabeling. For every node
value v present in both tuples (the new tuple being duplicate-free, so slots
are well defined), the child stored after the fix at the slot of v under the
OLD stored node order equals the child previously stored at the slot of v
under the NEW node order; and the face-nodes-to-element map is re-keyed so
that the stored representative tuple of the face becomes the new node
order. -/
theorem C5_child_slot_fix_transposed (fnNew fnOld oldChild init : List Int)
    (v : Int) (m : List (List Int × Nat)) (eid : Nat)
    (h4n : fnNew.length = 4) (h4o : fnOld.length = 4) (h4i : init.length = 4)
    (hnd : fnNew.Nodup) (hvn : v ∈ fnNew) (hvo : v ∈ fnOld)
    (hperm : fnNew.Perm fnOld) :
    (fixChildren fnNew fnOld oldChild init).getD (List.indexOf v fnOld) 0
      = oldChild.getD (List.indexOf v fnNew) 0 ∧
    faceMapFind (rekeyFaceMap m fnOld fnNew eid) fnNew = some (fnNew, eid) := by
  constructor
  · have hio : List.indexOf v fnOld < fnOld.length := List.indexOf_lt_length.2 hvo
    have hin : List.indexOf v fnNew < fnNew.length := List.indexOf_lt_length.2 hvn
    have hio4 : List.indexOf v fnOld < 4 := by rw [h4o] at hio; exact hio
    have hin4 : List.indexOf v fnNew < 4 := by rw [h4n] at hin; exact hin
    have hgetn : fnNew.getD (List.indexOf v fnNew) 0 = v := by
      rw [List.getD_eq_getElem fnNew 0 hin]
      exact List.getElem_indexOf hin
    have hb : List.indexOf (fnNew.getD (List.indexOf v fnNew) 0) fnOld < MaxFaceNodes := by
      rw [hgetn]
      exact hio4
    have hl : List.indexOf (fnNew.getD (List.indexOf v fnNew) 0) fnOld < init.length := by
      rw [hgetn, h4i]
      exact hio4
    have hmem : List.indexOf v fnNew ∈ List.range MaxFaceNodes :=
      List.mem_range.2 hin4
    have huniq : ∀ j, j ∈ List.range MaxFaceNodes →
        List.indexOf (fnNew.getD j 0) fnOld
          = List.indexOf (fnNew.getD (List.indexOf v fnNew) 0) fnOld →
        j = List.indexOf v fnNew := by
      intro j hj hEq
      rw [hgetn] at hEq
      have hjlt : j < fnNew.length := by rw [h4n]; exact List.mem_range.1 hj
      have hjmem : fnNew.getD j 0 ∈ fnOld := by
        by_contra hno
        have hidx : List.indexOf (fnNew.getD j 0) fnOld = fnOld.length := by
          by_contra hne2
          exact hno (List.indexOf_lt_length.1
            (lt_of_le_of_ne List.indexOf_le_length hne2))
        rw [hidx] at hEq
        rw [← hEq] at hio
        exact lt_irrefl _ hio
      have hjget : fnOld.getD (List.indexOf (fnNew.getD j 0) fnOld) 0 = fnNew.getD j 0 := by
        have hl2 := List.indexOf_lt_length.2 hjmem
        rw [List.getD_eq_getElem fnOld 0 hl2]
        exact List.getElem_indexOf hl2
      have hvget : fnOld.getD (List.indexOf v fnOld) 0 = v := by
        rw [List.getD_eq_getElem fnOld 0 hio]
        exact List.getElem_indexOf hio
      have hjv : fnNew.getD j 0 = v := by rw [← hjget, hEq, hvget]
      have hjv2 : fnNew.getD j 0 = fnNew.getD (List.indexOf v fnNew) 0 := by
        rw [hjv, hgetn]
      rw [List.getD_eq_getElem fnNew 0 hjlt,
        List.getD_eq_getElem fnNew 0 hin] at hjv2
      exact (hnd.getElem_inj_iff).1 hjv2
    have hmain := foldl_condSet_getD
      (fun i1 => List.indexOf (fnNew.getD i1 0) fnOld)
      (fun i1 => oldChild.getD i1 0) MaxFaceNodes
      (List.range MaxFaceNodes) init (List.indexOf v fnNew)
      (List.nodup_range _) hmem hb hl huniq
    have hmain2 : (fixChildren fnNew fnOld oldChild init).getD
        (List.indexOf (fnNew.getD (List.indexOf v fnNew) 0) fnOld) 0
        = oldChild.getD (List.indexOf v fnNew) 0 := hmain
    rw [hgetn] at hmain2
    exact hmain2
  · have hsort : sortNodes fnNew = sortNodes fnOld := sortNodes_eq_of_perm _ _ hperm
    have hnoeq : ∀ e, e ∈ faceMapErase m fnOld → fnEquiv e.1 fnNew = false := by
      intro e he
      have := List.of_mem_filter he
      by_cases hc : fnEquiv e.1 fnNew
      · exfalso
        have hEq : sortNodes e.1 = sortNodes fnNew := (fnEquiv_iff_sortNodes_eq _ _).1 hc
        have hEq2 : fnEquiv e.1 fnOld = true :=
          (fnEquiv_iff_sortNodes_eq _ _).2 (hEq.trans hsort)
        rw [hEq2] at this
        simp at this
      · simpa using hc
    have hnone : faceMapFind (faceMapErase m fnOld) fnNew = none := by
      unfold faceMapFind
      rw [List.find?_eq_none]
      intro e he
      rw [hnoeq e he]
      simp
    unfold rekeyFaceMap faceMapEmplace
    rw [hnone]
    simp only [Option.isSome_none, Bool.false_eq_true, if_false]
    unfold faceMapFind
    rw [List.find?_append]
    unfold faceMapFind at hnone
    rw [hnone]
    simp [List.find?, fnEquiv, fnLt, lexLt_self_false]

/-- Witness for C5 amended at the rotated rediscovery of (0,1,2,3) as
(1,2,3,0), node value 2, and a singleton map. -/
theorem C5_child_slot_fix_transposed_witness :
    (fixChildren [1, 2, 3, 0] [0, 1, 2, 3] [10, 20, 30, 40] [5, 5, 5, 5]).getD
        (List.indexOf 2 ([0, 1, 2, 3] : List Int)) 0
      = ([10, 20, 30, 40] : List Int).getD (List.indexOf 2 ([1, 2, 3, 0] : List Int)) 0 ∧
    faceMapFind (rekeyFaceMap [([0, 1, 2, 3], 6)] [0, 1, 2, 3] [1, 2, 3, 0] 6) [1, 2, 3, 0]
      = some ([1, 2, 3, 0], 6) :=
  C5_child_slot_fix_transposed [1, 2, 3, 0] [0, 1, 2, 3] [10, 20, 30, 40] [5, 5, 5, 5]
    2 [([0, 1, 2, 3], 6)] 6 (by decide) (by decide) (by decide) (by decide)
    (by decide) (by decide) (by decide)

/-- C7 counterexample: the tuple (7, 7, -1, -1) satisfies both the
degenerate-segment condition and the triangle condition; the source checks
the triangle condition first and returns TRIANGLE, while the stated order of the claim (segment first) yields SEGMENT. -/
theorem C7_geom_precedence_counterexample :
    face_geom_from_nodes [7, 7, -1, -1] = GeomType.TRIANGLE ∧
    face_geom_from_nodes_specOrder [7, 7, -1, -1] = GeomType.SEGMENT ∧
    GeomType.TRIANGLE ≠ GeomType.SEGMENT := by decide

/-- C7 amended: the geometry is triangle whenever the 4th node is -1 (this
test has precedence), else degenerate segment when node pairs (0,1) and
(2,3) coincide, else quad; when the 4th node is not -1 the source order and
the stated order of the claim agree. -/
theorem C7_geom_from_node_pattern (nodes : List Int) :
    (nodes.getD 3 0 = -1 → face_geom_from_nodes nodes = GeomType.TRIANGLE) ∧
    (nodes.getD 3 0 ≠ -1 → nodes.getD 0 0 = nodes.getD 1 0 →
       nodes.getD 2 0 = nodes.getD 3 0 →
       face_geom_from_nodes nodes = GeomType.SEGMENT) ∧
    (nodes.getD 3 0 ≠ -1 →
       ¬(nodes.getD 0 0 = nodes.getD 1 0 ∧ nodes.getD 2 0 = nodes.getD 3 0) →
       face_geom_from_nodes nodes = GeomType.SQUARE) ∧
    (nodes.getD 3 0 ≠ -1 →
       face_geom_from_nodes nodes = face_geom_from_nodes_specOrder nodes) := by
  refine ⟨?_, ?_, ?_, ?_⟩
  · intro h4
    unfold face_geom_from_nodes
    rw [if_pos h4]
  · intro h4 h01 h23
    unfold face_geom_from_nodes
    rw [if_neg h4, if_pos ⟨h01, h23⟩]
  · intro h4 hnp
    unfold face_geom_from_nodes
    rw [if_neg h4, if_neg hnp]
  · intro h4
    unfold face_geom_from_nodes face_geom_from_nodes_specOrder
    by_cases hp : nodes.getD 0 0 = nodes.getD 1 0 ∧ nodes.getD 2 0 = nodes.getD 3 0
    · rw [if_neg h4, if_pos hp, if_pos hp]
    · rw [if_neg h4, if_neg hp, if_neg hp, if_neg h4]

/-- Witness for C7 at the tuples (1,2,3,-1), (4,4,9,9) and (1,2,3,4). -/
theorem C7_geom_from_node_pattern_witness :
    face_geom_from_nodes [1, 2, 3, -1] = GeomType.TRIANGLE ∧
    face_geom_from_nodes [4, 4, 9, 9] = GeomType.SEGMENT ∧
    face_geom_from_nodes [1, 2, 3, 4] = GeomType.SQUARE :=
  ⟨(C7_geom_from_node_pattern [1, 2, 3, -1]).1 (by decide),
   (C7_geom_from_node_pattern [4, 4, 9, 9]).2.1 (by decide) (by decide) (by decide),
   (C7_geom_from_node_pattern [1, 2, 3, 4]).2.2.1 (by decide) (by decide)⟩

/-- Generic set/getD interaction at the written position. -/
theorem listGetD_set_eq {α : Type} (l : List α) (i : Nat) (a d : α) (h : i < l.length) :
    (l.set i a).getD i d = a := by
  rw [List.getD_eq_getD_get?, List.get?_eq_getElem?, List.getElem?_set_self h]
  rfl

/-- Generic set/getD interaction away from the written position. -/
theorem listGetD_set_ne {α : Type} (l : List α) (i j : Nat) (a d : α) (h : i ≠ j) :
    (l.set i a).getD j d = l.getD j d := by
  rw [List.getD_eq_getD_get?, List.get?_eq_getElem?, List.getElem?_set_ne h,
    List.getD_eq_getD_get?, List.get?_eq_getElem?]

theorem reorderLoop_sorted : ∀ (fuel : Nat) (s t : RState),
    reorderLoop fuel s = some t → parental_sorted t = true := by
  intro fuel
  induction fuel with
  | zero =>
    intro s t h
    unfold reorderLoop at h
    by_cases hs : parental_sorted s
    · rw [if_pos hs] at h
      cases h
      exact hs
    · rw [if_neg hs] at h
      cases h
  | succ n ih =>
    intro s t h
    unfold reorderLoop at h
    by_cases hs : parental_sorted s
    · rw [if_pos hs] at h
      cases h
      exact hs
    · rw [if_neg hs] at h
      exact ih _ _ h

theorem isSortedBy_adj (comp : Nat → Nat → Bool) :
    ∀ (l : List Nat), isSortedBy comp l = true →
      ∀ k, k + 1 < l.length → comp (l.getD (k + 1) 0) (l.getD k 0) = false := by
  intro l
  induction l with
  | nil => intro _ k hk; simp at hk
  | cons x xs ih =>
    cases xs with
    | nil => intro _ k hk; simp at hk
    | cons y ys =>
      intro h k hk
      have hsplit := (Bool.and_eq_true _ _).mp h
      have h1 : comp y x = false := by simpa using hsplit.1
      have h2 : isSortedBy comp (y :: ys) = true := hsplit.2
      cases k with
      | zero => simpa [List.getD_cons_zero, List.getD_cons_succ] using h1
      | succ k =>
        have := ih h2 k (by simpa using hk)
        simpa [List.getD_cons_succ] using this

theorem parental_sorted_adj (s : RState) (h : parental_sorted s = true) (i : Nat)
    (hi : i + 1 < s.elements.length) :
    comp_elements s (i + 1) i = false := by
  have hadj := isSortedBy_adj (comp_elements s) (List.range s.elements.length) h i
    (by simpa using hi)
  have hr1 : (List.range s.elements.length).getD (i + 1) 0 = i + 1 := by
    rw [List.getD_eq_getElem _ _ (by simpa using hi)]
    exact List.getElem_range _ _
  have hr0 : (List.range s.elements.length).getD i 0 = i := by
    rw [List.getD_eq_getElem _ _ (by simp; omega)]
    exact List.getElem_range _ _
  rw [hr1, hr0] at hadj
  exact hadj

theorem mem_permuteBy {α : Type} (perm : List Nat) (xs : List α) (d : α) (e : α)
    (h : e ∈ permuteBy perm xs d) : e ∈ xs ∨ e = d := by
  unfold permuteBy at h
  obtain ⟨j, hj, hEq⟩ := List.mem_map.1 h
  by_cases hlen : j < xs.length
  · left
    rw [← hEq, List.getD_eq_getElem xs d hlen]
    exact List.getElem_mem hlen
  · right
    rw [← hEq, List.getD_eq_default xs d (by omega)]

theorem parent_remap_bound (p : Int) (k : Nat) :
    -1 ≤ (if p = -1 then -1 else Int.ofNat k) := by
  by_cases hp : p = -1
  · rw [if_pos hp]
  · rw [if_neg hp]
    show (-1 : Int) ≤ (k : Int)
    omega

theorem sweepElem_parent_bound (otn : Nat → Nat) (els : List Element) (q : Nat)
    (hb : ∀ e ∈ els, -1 ≤ e.parent) :
    ∀ e ∈ sweepElem otn els q, -1 ≤ e.parent := by
  intro x hx
  unfold sweepElem at hx
  rcases List.mem_or_eq_of_mem_set hx with hmem | hEq
  · exact hb x hmem
  · rw [hEq]
    exact parent_remap_bound _ _

theorem sweep_fold_parent_bound (otn : Nat → Nat) :
    ∀ (qs : List Nat) (els : List Element),
      (∀ e ∈ els, -1 ≤ e.parent) →
      ∀ e ∈ qs.foldl (sweepElem otn) els, -1 ≤ e.parent := by
  intro qs
  induction qs with
  | nil => intro els hb e he; exact hb e he
  | cons q qq ih =>
    intro els hb e he
    rw [List.foldl_cons] at he
    exact ih _ (sweepElem_parent_bound otn els q hb) e he

theorem reorderStep_parent_bound (s : RState)
    (hb : ∀ e ∈ s.elements, -1 ≤ e.parent) :
    ∀ e ∈ (reorderStep s).elements, -1 ≤ e.parent := by
  intro e he
  unfold reorderStep at he
  simp only at he
  unfold sweep at he
  refine sweep_fold_parent_bound _ _ _ ?_ e he
  intro x hx
  rcases mem_permuteBy _ _ _ x hx with hmem | hd
  · exact hb x hmem
  · rw [hd]
    decide

theorem reorderLoop_parent_bound : ∀ (fuel : Nat) (s t : RState),
    (∀ e ∈ s.elements, -1 ≤ e.parent) → reorderLoop fuel s = some t →
    ∀ e ∈ t.elements, -1 ≤ e.parent := by
  intro fuel
  induction fuel with
  | zero =>
    intro s t hb h
    unfold reorderLoop at h
    by_cases hs : parental_sorted s
    · rw [if_pos hs] at h
      cases h
      exact hb
    · rw [if_neg hs] at h
      cases h
  | succ n ih =>
    intro s t hb h
    unfold reorderLoop at h
    by_cases hs : parental_sorted s
    · rw [if_pos hs] at h
      cases h
      exact hb
    · rw [if_neg hs] at h
      exact ih _ _ (reorderStep_parent_bound s hb) h

theorem sorted_adjacent_parent_le (t : RState) (hsorted : parental_sorted t = true)
    (i : Nat) (hi : i + 1 < t.elements.length) :
    (t.elements.getD i default).parent ≤ (t.elements.getD (i + 1) default).parent := by
  have hc := parental_sorted_adj t hsorted i hi
  unfold comp_elements at hc
  by_cases hp : (t.elements.getD (i + 1) default).parent
      = (t.elements.getD i default).parent
  · exact le_of_eq hp.symm
  · rw [if_neg hp] at hc
    exact le_of_not_lt (of_decide_eq_false hc)

theorem sorted_parent_le_of_le (t : RState) (hsorted : parental_sorted t = true) :
    ∀ (d a : Nat), a + d < t.elements.length →
      (t.elements.getD a default).parent ≤ (t.elements.getD (a + d) default).parent := by
  intro d
  induction d with
  | zero => intro a _; exact le_refl _
  | succ d ih =>
    intro a ha
    have h1 := ih a (by omega)
    have h2 := sorted_adjacent_parent_le t hsorted (a + d) (by omega)
    exact le_trans h1 h2

/-- C2: when the repeat-until-sorted loop of the reordering pass terminates,
adjacent elements have monotonically non-decreasing parent ids, and
consequently every root element (parent = -1) precedes every non-root
element. -/
theorem C2_reordering_monotone_roots_first (fuel : Nat) (s t : RState)
    (hb : ∀ e ∈ s.elements, -1 ≤ e.parent)
    (h : reorderLoop fuel s = some t) :
    (∀ i, i + 1 < t.elements.length →
       (t.elements.getD i default).parent ≤ (t.elements.getD (i + 1) default).parent) ∧
    (∀ i j, i < t.elements.length → j < t.elements.length →
       (t.elements.getD i default).parent = -1 →
       (t.elements.getD j default).parent ≠ -1 → i < j) := by
  have hsorted := reorderLoop_sorted fuel s t h
  have hbt := reorderLoop_parent_bound fuel s t hb h
  constructor
  · intro i hi
    exact sorted_adjacent_parent_le t hsorted i hi
  · intro i j hilen hjlen hroot hnotroot
    by_contra hij
    have hji : j ≤ i := by omega
    obtain ⟨d, hd⟩ : ∃ d, i = j + d := ⟨i - j, by omega⟩
    have hmono := sorted_parent_le_of_le t hsorted d j (by omega)
    rw [← hd, hroot] at hmono
    have hjmem : t.elements.getD j default ∈ t.elements := by
      rw [List.getD_eq_getElem t.elements default hjlen]
      exact List.getElem_mem hjlen
    have hlow := hbt _ hjmem
    exact hnotroot (le_antisymm hmono hlow)

theorem insertIdx_head_of_not_lt (comp : Nat → Nat → Bool) (x y : Nat)
    (ys : List Nat) (h1 : comp y x = false) :
    insertIdx comp x (y :: ys) = x :: y :: ys := by
  unfold insertIdx
  rw [h1]
  simp

theorem stableSortIdx_of_sorted (comp : Nat → Nat → Bool) :
    ∀ (l : List Nat), isSortedBy comp l = true → stableSortIdx comp l = l := by
  intro l
  induction l with
  | nil => intro _; rfl
  | cons x xs ih =>
    cases xs with
    | nil => intro _; rfl
    | cons y ys =>
      intro h
      have hsplit := (Bool.and_eq_true _ _).mp h
      have h1 : comp y x = false := by simpa using hsplit.1
      have h2 : isSortedBy comp (y :: ys) = true := hsplit.2
      show insertIdx comp x (stableSortIdx comp (y :: ys)) = x :: y :: ys
      rw [ih h2]
      exact insertIdx_head_of_not_lt comp x y ys h1

/-- C4: idempotence of the reordering pass. On an element array already
sorted by the (parent id, parent-face node tuple) key, the stable sort of
the index array is the identity permutation, the repeat-until-sorted loop
exits immediately with the state unchanged, and conversely whenever the
loop exits its result is sorted by that key - the exit point of the loop is
exactly the fixed point of the sort. -/
theorem C4_reordering_fixed_point (s t : RState) (fuel : Nat) :
    (parental_sorted s = true →
       stableSortIdx (comp_elements s) (List.range s.elements.length)
         = List.range s.elements.length) ∧
    (parental_sorted s = true → reorderLoop fuel s = some s) ∧
    (reorderLoop fuel s = some t → parental_sorted t = true) := by
  refine ⟨fun h => stableSortIdx_of_sorted _ _ h, fun h => ?_,
    fun h => reorderLoop_sorted fuel s t h⟩
  cases fuel with
  | zero =>
    unfold reorderLoop
    rw [if_pos h]
  | succ n =>
    unfold reorderLoop
    rw [if_pos h]

theorem elemSameShape_refl (a : Element) : ElemSameShape a a :=
  ⟨rfl, rfl, rfl, rfl, rfl, rfl⟩

theorem comp_elements_eq_of_sameShape (s t : RState) (h : StateSameShape s t) :
    comp_elements s = comp_elements t := by
  funext l r
  unfold comp_elements
  dsimp only
  rw [(h.2.1 l).2.2.1, (h.2.1 r).2.2.1, h.2.2.1]

theorem parental_sorted_eq_of_sameShape (s t : RState) (h : StateSameShape s t) :
    parental_sorted s = parental_sorted t := by
  unfold parental_sorted
  rw [comp_elements_eq_of_sameShape s t h, h.1]

theorem permuteBy_length {α : Type} (perm : List Nat) (xs : List α) (d : α) :
    (permuteBy perm xs d).length = perm.length := by
  unfold permuteBy
  exact List.length_map _ _

theorem permuteBy_getD {α : Type} (perm : List Nat) (xs : List α) (d : α) :
    ∀ i, i < perm.length →
      (permuteBy perm xs d).getD i d = xs.getD (perm.getD i 0) d := by
  induction perm with
  | nil => intro i h; simp at h
  | cons p ps ih =>
    intro i h
    cases i with
    | zero => rfl
    | succ i =>
      have := ih i (by simpa using h)
      simpa [permuteBy, List.getD_cons_succ] using this

theorem permuteBy_pointwise (perm : List Nat) (xs ys : List Element)
    (hpt : ∀ i, ElemSameShape (xs.getD i default) (ys.getD i default)) :
    ∀ i, ElemSameShape ((permuteBy perm xs default).getD i default)
      ((permuteBy perm ys default).getD i default) := by
  intro i
  by_cases h : i < perm.length
  · rw [permuteBy_getD perm xs default i h, permuteBy_getD perm ys default i h]
    exact hpt _
  · rw [List.getD_eq_default _ _ (by rw [permuteBy_length]; omega),
      List.getD_eq_default _ _ (by rw [permuteBy_length]; omega)]
    exact elemSameShape_refl _

theorem remapChildren_fst (otn : Nat → Nat) (els1 els2 : List Element) :
    ∀ (cs : List Int) (acc1 acc2 : Int),
      (remapChildren otn els1 cs acc1).1 = (remapChildren otn els2 cs acc2).1 := by
  intro cs
  induction cs with
  | nil => intro _ _; rfl
  | cons c cs ih =>
    intro acc1 acc2
    by_cases hc : 0 ≤ c
    · simp only [remapChildren, if_pos hc]
      rw [ih]
    · simp only [remapChildren, if_neg hc]

theorem elsRel_set (els1 els2 : List Element) (q : Nat) (a b : Element)
    (h : ElsRel els1 els2) (hab : ElemSameShape a b) :
    ElsRel (els1.set q a) (els2.set q b) := by
  refine ⟨by rw [List.length_set, List.length_set, h.1], ?_⟩
  intro i
  by_cases hq : q = i
  · subst hq
    by_cases hlt : q < els1.length
    · rw [listGetD_set_eq els1 q a default hlt,
        listGetD_set_eq els2 q b default (by rw [← h.1]; exact hlt)]
      exact hab
    · rw [List.getD_eq_default _ _ (by rw [List.length_set]; omega),
        List.getD_eq_default _ _ (by rw [List.length_set, ← h.1]; omega)]
      exact elemSameShape_refl _
  · rw [listGetD_set_ne els1 q i a default hq, listGetD_set_ne els2 q i b default hq]
    exact h.2 i

theorem sweepElem_rel (otn : Nat → Nat) (els1 els2 : List Element) (q : Nat)
    (h : ElsRel els1 els2) : ElsRel (sweepElem otn els1 q) (sweepElem otn els2 q) := by
  obtain ⟨hg, ha, hp, hc, hn, hr⟩ := h.2 q
  have hleaf : (els1.getD q default).IsLeaf = (els2.getD q default).IsLeaf := by
    unfold Element.IsLeaf
    rw [hr]
  have hX : ElemSameShape
      (if (els1.getD q default).IsLeaf then els1.getD q default
       else { els1.getD q default with
              child := (remapChildren otn els1 (els1.getD q default).child intMax).1,
              rank := (remapChildren otn els1 (els1.getD q default).child intMax).2 })
      (if (els2.getD q default).IsLeaf then els2.getD q default
       else { els2.getD q default with
              child := (remapChildren otn els2 (els2.getD q default).child intMax).1,
              rank := (remapChildren otn els2 (els2.getD q default).child intMax).2 }) := by
    by_cases hlf : (els1.getD q default).IsLeaf
    · rw [if_pos hlf, if_pos (by rw [← hleaf]; exact hlf)]
      exact ⟨hg, ha, hp, hc, hn, hr⟩
    · rw [if_neg hlf, if_neg (by rw [← hleaf]; exact hlf)]
      refine ⟨hg, ha, hp, ?_, hn, hr⟩
      rw [hc]
      exact remapChildren_fst otn els1 els2 _ _ _
  obtain ⟨hg2, ha2, hp2, hc2, hn2, hr2⟩ := hX
  refine elsRel_set els1 els2 q _ _ h ?_
  exact ⟨hg2, ha2, by rw [hp2], hc2, hn2, hr2⟩

theorem sweep_fold_rel (otn : Nat → Nat) (qs : List Nat) :
    ∀ els1 els2, ElsRel els1 els2 →
      ElsRel (qs.foldl (sweepElem otn) els1) (qs.foldl (sweepElem otn) els2) := by
  induction qs with
  | nil => intro _ _ h; exact h
  | cons q qq ih =>
    intro els1 els2 h
    rw [List.foldl_cons, List.foldl_cons]
    exact ih _ _ (sweepElem_rel otn els1 els2 q h)

theorem sweep_rel (otn : Nat → Nat) (els1 els2 : List Element) (h : ElsRel els1 els2) :
    ElsRel (sweep otn els1) (sweep otn els2) := by
  unfold sweep
  rw [h.1]
  exact sweep_fold_rel otn _ els1 els2 h

theorem reorderStep_sameShape (s t : RState) (h : StateSameShape s t) :
    StateSameShape (reorderStep s) (reorderStep t) := by
  have hcomp := comp_elements_eq_of_sameShape s t h
  obtain ⟨hlen, hpt, hfns, hpids, hinv⟩ := h
  have hperm : stableSortIdx (comp_elements s) (List.range s.elements.length)
      = stableSortIdx (comp_elements t) (List.range t.elements.length) := by
    rw [hcomp, hlen]
  have hstep2 : reorderStep t =
      { elements := sweep
          (fun j => List.indexOf j (stableSortIdx (comp_elements s)
            (List.range s.elements.length)))
          (permuteBy (stableSortIdx (comp_elements s)
            (List.range s.elements.length)) t.elements default),
        pids := permuteBy (stableSortIdx (comp_elements s)
          (List.range s.elements.length)) t.pids 0,
        fns := permuteBy (stableSortIdx (comp_elements s)
          (List.range s.elements.length)) t.fns [],
        inv := rebuildInv (permuteBy (stableSortIdx (comp_elements s)
          (List.range s.elements.length)) t.pids 0) } := by
    unfold reorderStep
    rw [hperm]
  rw [hstep2]
  unfold reorderStep
  have hrel : ElsRel
      (permuteBy (stableSortIdx (comp_elements s) (List.range s.elements.length))
        s.elements default)
      (permuteBy (stableSortIdx (comp_elements s) (List.range s.elements.length))
        t.elements default) :=
    ⟨by rw [permuteBy_length, permuteBy_length], permuteBy_pointwise _ _ _ hpt⟩
  have hres := sweep_rel
    (fun j => List.indexOf j (stableSortIdx (comp_elements s)
      (List.range s.elements.length))) _ _ hrel
  exact ⟨hres.1, hres.2, by rw [hfns], by rw [hpids], by rw [hpids]⟩

theorem reorderLoop_sameShape : ∀ (fuel : Nat) (s1 s2 t1 t2 : RState),
    StateSameShape s1 s2 → reorderLoop fuel s1 = some t1 →
    reorderLoop fuel s2 = some t2 → StateSameShape t1 t2 := by
  intro fuel
  induction fuel with
  | zero =>
    intro s1 s2 t1 t2 hss h1 h2
    unfold reorderLoop at h1 h2
    by_cases hs : parental_sorted s1
    · rw [if_pos hs] at h1
      rw [if_pos (by rw [← parental_sorted_eq_of_sameShape s1 s2 hss]; exact hs)] at h2
      cases h1
      cases h2
      exact hss
    · rw [if_neg hs] at h1
      cases h1
  | succ n ih =>
    intro s1 s2 t1 t2 hss h1 h2
    unfold reorderLoop at h1 h2
    by_cases hs : parental_sorted s1
    · rw [if_pos hs] at h1
      rw [if_pos (by rw [← parental_sorted_eq_of_sameShape s1 s2 hss]; exact hs)] at h2
      cases h1
      cases h2
      exact hss
    · rw [if_neg hs] at h1
      rw [if_neg (by rw [← parental_sorted_eq_of_sameShape s1 s2 hss]; exact hs)] at h2
      exact ih _ _ _ _ (reorderStep_sameShape s1 s2 hss) h1 h2

/-- C3: the element ordering produced by the reordering pass is a pure
function of parent-mesh data. The comparator reads only parent links and
the recorded parent-face node tuples, so two runs on states agreeing on
those (and on the recorded parent ids), with arbitrarily different
per-process rank fields, produce identical permutations: identical
parent_element_ids_, node-tuple tables, inverse maps, and
pointwise-identical elements up to rank — with no communication modelled
anywhere in the pass. -/
theorem C3_ordering_pure_function_of_parent_data (fuel : Nat)
    (s1 s2 t1 t2 : RState) (hss : StateSameShape s1 s2)
    (h1 : reorderLoop fuel s1 = some t1) (h2 : reorderLoop fuel s2 = some t2) :
    t1.pids = t2.pids ∧ t1.fns = t2.fns ∧ t1.inv = t2.inv ∧
    t1.elements.length = t2.elements.length ∧
    (∀ i, ElemSameShape (t1.elements.getD i default) (t2.elements.getD i default)) := by
  have hss2 := reorderLoop_sameShape fuel s1 s2 t1 t2 hss h1 h2
  exact ⟨hss2.2.2.2.1, hss2.2.2.1, hss2.2.2.2.2, hss2.1, hss2.2.1⟩

/-- Witness for C2 at a sorted state (the loop exits immediately),
instantiated at the adjacent pair (0,1) and the root/non-root pair (0,1). -/
theorem C2_reordering_monotone_roots_first_witness :
    ((demoSorted.elements.getD 0 default).parent
      ≤ (demoSorted.elements.getD 1 default).parent) ∧ (0 : Nat) < 1 :=
  ⟨(C2_reordering_monotone_roots_first 1 demoSorted demoSorted
      (by decide) (by decide)).1 0 (by decide),
   (C2_reordering_monotone_roots_first 1 demoSorted demoSorted
      (by decide) (by decide)).2 0 1 (by decide) (by decide) (by decide) (by decide)⟩

/-- Witness for C4 at the sorted two-element state. -/
theorem C4_reordering_fixed_point_witness :
    stableSortIdx (comp_elements demoSorted) (List.range demoSorted.elements.length)
      = List.range demoSorted.elements.length ∧
    reorderLoop 2 demoSorted = some demoSorted ∧
    parental_sorted demoSorted = true :=
  ⟨(C4_reordering_fixed_point demoSorted demoSorted 2).1 (by decide),
   (C4_reordering_fixed_point demoSorted demoSorted 2).2.1 (by decide),
   (C4_reordering_fixed_point demoSorted demoSorted 2).2.2 (by decide)⟩

/-- Witness for C3: two runs of the pass on states differing only in ranks
agree on the final parent id array and, pointwise, on every non-rank
element field (instantiated at index 0). -/
theorem C3_ordering_pure_function_of_parent_data_witness :
    c3t1.pids = c3t2.pids ∧
    ElemSameShape (c3t1.elements.getD 0 default) (c3t2.elements.getD 0 default) :=
  ⟨(C3_ordering_pure_function_of_parent_data 3 c3s1 c3s2 c3t1 c3t2
      (by
        refine ⟨rfl, ?_, rfl, rfl, rfl⟩
        intro i
        match i with
        | 0 => exact ⟨rfl, rfl, rfl, rfl, rfl, rfl⟩
        | 1 => exact ⟨rfl, rfl, rfl, rfl, rfl, rfl⟩
        | n + 2 => exact ⟨rfl, rfl, rfl, rfl, rfl, rfl⟩)
      (by decide) (by decide)).1,
   (C3_ordering_pure_function_of_parent_data 3 c3s1 c3s2 c3t1 c3t2
      (by
        refine ⟨rfl, ?_, rfl, rfl, rfl⟩
        intro i
        match i with
        | 0 => exact ⟨rfl, rfl, rfl, rfl, rfl, rfl⟩
        | 1 => exact ⟨rfl, rfl, rfl, rfl, rfl, rfl⟩
        | n + 2 => exact ⟨rfl, rfl, rfl, rfl, rfl, rfl⟩)
      (by decide) (by decide)).2.2.2.2 0⟩

/-- C6: the reordering pass terminates on the discovery-order state c6InitA,
yet in the final state an interior element (index 1, a root) holds rank 0
while the minimum over the ranks of its children is 2 (their ranks are [2, 2]):
the sweep of lines 465-478 recomputes ranks in index order, and in the
final sorted order parents precede their children, so a parent reads the rank of an
interior child from before the recompute of that child. The same
happens on c6InitB, whose interior elements start from rank 99. -/
theorem C6_interior_rank_not_min_of_children :
    ((reorderLoop 8 c6InitA).isSome ∧
     (reorderLoop 8 c6InitA).map rankMinOk = some false ∧
     (reorderLoop 8 c6InitA).map (fun t => (t.elements.getD 1 default).ref_type)
       = some 1 ∧
     (reorderLoop 8 c6InitA).map (fun t => (t.elements.getD 1 default).rank)
       = some 0 ∧
     (reorderLoop 8 c6InitA).map (fun t =>
        ((t.elements.getD 1 default).child.takeWhile (fun c => decide (0 ≤ c))).map
          (fun c => (t.elements.getD c.toNat default).rank)) = some [2, 2]) ∧
    ((reorderLoop 8 c6InitB).isSome ∧
     (reorderLoop 8 c6InitB).map rankMinOk = some false) := by
  decide

theorem wireParentChild_sizes (dim2 : Bool) (s : BState) (pelemId childSlot cur : Nat) :
    (wireParentChild dim2 s pelemId childSlot cur).elements.length = s.elements.length ∧
    (wireParentChild dim2 s pelemId childSlot cur).pids = s.pids := by
  unfold wireParentChild
  refine ⟨?_, rfl⟩
  rw [List.length_set, List.length_set]

theorem ascendLoop_lockstep (pfn : List Int → Option (List Int × Nat))
    (ffid : List Int → Int) (elemIsTri typeUnrec dim2 : Bool) (attr : Int)
    (junk : List Int) : ∀ (fuel : Nat) (s : BState) (fn : List Int) (cur : Nat),
    s.elements.length = s.pids.length →
    (ascendLoop pfn ffid elemIsTri typeUnrec dim2 attr junk fuel s fn cur).elements.length
      = (ascendLoop pfn ffid elemIsTri typeUnrec dim2 attr junk fuel s fn cur).pids.length := by
  intro fuel
  induction fuel with
  | zero => intro s fn cur h; exact h
  | succ n ih =>
    intro s fn cur h
    unfold ascendLoop
    cases hp : pfn fn with
    | none =>
      dsimp only
      simp only [setElemParent]
      rw [List.length_set]
      exact h
    | some pr =>
      obtain ⟨pfnodes, childSlot⟩ := pr
      dsimp only
      cases hm : faceMapFind s.fmap pfnodes with
      | none =>
        dsimp only
        refine ih _ _ _ ?_
        have hw := wireParentChild_sizes dim2
          { elements := s.elements ++ [freshElem (face_geom_from_nodes pfnodes) attr []],
            pids := s.pids ++ [ffid pfnodes],
            fmap := s.fmap ++ [(pfnodes, s.elements.length)] } s.elements.length childSlot cur
        rw [hw.1, hw.2]
        simp only [List.length_append, List.length_singleton]
        omega
      | some e =>
        obtain ⟨storedFn, pelemId⟩ := e
        dsimp only
        by_cases hfix : (((elemIsTri && decide (childSlot ≠ 3)) || !typeUnrec)
            && !decide (pfnodes = storedFn)) = true
        · rw [if_pos hfix]
          by_cases hlf : (s.elements.getD pelemId default).IsLeaf
          · rw [if_pos hlf]
            refine ih _ _ _ ?_
            have hw := wireParentChild_sizes dim2
              { elements := clearLeafStorage s.elements pelemId, pids := s.pids,
                fmap := rekeyFaceMap s.fmap storedFn pfnodes pelemId } pelemId childSlot cur
            rw [hw.1, hw.2]
            simp only [clearLeafStorage]
            rw [List.length_set]
            exact h
          · rw [if_neg hlf]
            refine ih _ _ _ ?_
            have hw := wireParentChild_sizes dim2
              { elements := permuteInteriorChildren s.elements pelemId pfnodes storedFn junk,
                pids := s.pids, fmap := rekeyFaceMap s.fmap storedFn pfnodes pelemId }
              pelemId childSlot cur
            rw [hw.1, hw.2]
            simp only [permuteInteriorChildren]
            rw [List.length_set]
            exact h
        · rw [if_neg hfix]
          have hw := wireParentChild_sizes dim2 s pelemId childSlot cur
          rw [hw.1, hw.2]
          exact h

theorem boundaryFaceStep_lockstep (pfn : List Int → Option (List Int × Nat))
    (ffid : List Int → Int) (dim2 : Bool) (junk : List Int) (fuel : Nat)
    (s : BState) (f : PFace) (h : s.elements.length = s.pids.length) :
    (boundaryFaceStep pfn ffid dim2 junk fuel s f).elements.length
      = (boundaryFaceStep pfn ffid dim2 junk fuel s f).pids.length := by
  unfold boundaryFaceStep
  by_cases h1 : f.unused
  · rw [if_pos h1]; exact h
  · rw [if_neg h1]
    by_cases h2 : (!f.matched || f.isMaster) = true
    · rw [if_pos h2]; exact h
    · rw [if_neg h2]
      by_cases h3 : (faceMapFind s.fmap f.fn).isSome
      · rw [if_pos h3]; exact h
      · rw [if_neg h3]
        refine ascendLoop_lockstep pfn ffid f.elemIsTri f.typeUnrecognized dim2
          f.attrib junk fuel _ f.fn s.elements.length ?_
        simp only [List.length_append, List.length_singleton]
        omega

/-- C10: throughout the boundary discovery loop every element append -
whether the leaf added for a matching parent face or an ancestor
synthesized during the ascent - is paired with exactly one append of a
parent face id, so when the loop over the parent faces finishes,
parent_element_ids_ and the element array have equal size (the assertion
of line 348), for every choice of parent-mesh oracles, dimension, fuel and
face list. -/
theorem C10_parent_ids_match_elements (pfn : List Int → Option (List Int × Nat))
    (ffid : List Int → Int) (dim2 : Bool) (junk : List Int) (fuel : Nat)
    (faces : List PFace) :
    (runBoundaryDiscovery pfn ffid dim2 junk fuel faces).elements.length
      = (runBoundaryDiscovery pfn ffid dim2 junk fuel faces).pids.length := by
  unfold runBoundaryDiscovery
  have hgen : ∀ (fs : List PFace) (s : BState), s.elements.length = s.pids.length →
      (fs.foldl (boundaryFaceStep pfn ffid dim2 junk fuel) s).elements.length
        = (fs.foldl (boundaryFaceStep pfn ffid dim2 junk fuel) s).pids.length := by
    intro fs
    induction fs with
    | nil => intro s h; exact h
    | cons f fs ih =>
      intro s h
      rw [List.foldl_cons]
      exact ih _ (boundaryFaceStep_lockstep pfn ffid dim2 junk fuel s f h)
  exact hgen faces _ rfl

theorem fnEquiv_symm_of (a b : List Int) (h : fnEquiv a b = true) :
    fnEquiv b a = true :=
  (fnEquiv_iff_sortNodes_eq b a).2 ((fnEquiv_iff_sortNodes_eq a b).1 h).symm

theorem fnEquiv_trans_of (a b c : List Int) (h1 : fnEquiv a b = true)
    (h2 : fnEquiv b c = true) : fnEquiv a c = true :=
  (fnEquiv_iff_sortNodes_eq a c).2
    (((fnEquiv_iff_sortNodes_eq a b).1 h1).trans ((fnEquiv_iff_sortNodes_eq b c).1 h2))

theorem getD_append_length {α : Type} (l : List α) (x d : α) :
    (l ++ [x]).getD l.length d = x := by
  induction l with
  | nil => rfl
  | cons a as ih =>
    show ((a :: (as ++ [x]))).getD (as.length + 1) d = x
    rw [List.getD_cons_succ]
    exact ih

theorem faceMapFind_none_nonequiv (m : List (List Int × Nat)) (k : List Int)
    (h : faceMapFind m k = none) : ∀ e ∈ m, fnEquiv e.1 k = false := by
  intro e he
  unfold faceMapFind at h
  have := List.find?_eq_none.1 h e he
  simpa using this

theorem faceMapFind_some_props (m : List (List Int × Nat)) (k : List Int)
    (e : List Int × Nat) (h : faceMapFind m k = some e) :
    e ∈ m ∧ fnEquiv e.1 k = true := by
  unfold faceMapFind at h
  refine ⟨List.mem_of_find?_eq_some h, ?_⟩
  have hp := List.find?_some h
  simpa using hp

theorem keysUnique_append (m : List (List Int × Nat)) (k : List Int) (v : Nat)
    (hu : KeysUnique m) (hnone : ∀ e ∈ m, fnEquiv e.1 k = false) :
    KeysUnique (m ++ [(k, v)]) := by
  intro e1 h1 e2 h2 heq
  rcases List.mem_append.1 h1 with h1m | h1s
  · rcases List.mem_append.1 h2 with h2m | h2s
    · exact hu e1 h1m e2 h2m heq
    · rw [List.mem_singleton] at h2s
      subst h2s
      rw [hnone e1 h1m] at heq
      exact Bool.noConfusion heq
  · rw [List.mem_singleton] at h1s
    subst h1s
    rcases List.mem_append.1 h2 with h2m | h2s
    · have hsym := fnEquiv_symm_of _ _ heq
      rw [hnone e2 h2m] at hsym
      exact Bool.noConfusion hsym
    · rw [List.mem_singleton] at h2s
      subst h2s
      rfl

theorem rekeyFaceMap_eq (m : List (List Int × Nat)) (storedFn pfnodes : List Int)
    (pid : Nat) (hequiv : fnEquiv storedFn pfnodes = true) :
    rekeyFaceMap m storedFn pfnodes pid
      = m.filter (fun e => !fnEquiv e.1 storedFn) ++ [(pfnodes, pid)] := by
  unfold rekeyFaceMap faceMapEmplace faceMapErase
  have hnone : faceMapFind (m.filter (fun e => !fnEquiv e.1 storedFn)) pfnodes = none := by
    unfold faceMapFind
    rw [List.find?_eq_none]
    intro e he hc
    have h1 : fnEquiv e.1 storedFn = false := by
      simpa using List.of_mem_filter he
    have h2 : fnEquiv e.1 storedFn = true :=
      fnEquiv_trans_of _ _ _ hc (fnEquiv_symm_of _ _ hequiv)
    rw [h1] at h2
    exact Bool.noConfusion h2
  rw [hnone]
  simp

theorem rekey_keysUnique (m : List (List Int × Nat)) (storedFn pfnodes : List Int)
    (pid : Nat) (hu : KeysUnique m) (hequiv : fnEquiv storedFn pfnodes = true) :
    KeysUnique (rekeyFaceMap m storedFn pfnodes pid) := by
  rw [rekeyFaceMap_eq m storedFn pfnodes pid hequiv]
  refine keysUnique_append _ pfnodes pid ?_ ?_
  · intro e1 h1 e2 h2 hEq
    exact hu e1 (List.mem_of_mem_filter h1) e2 (List.mem_of_mem_filter h2) hEq
  · intro e he
    have h1 : fnEquiv e.1 storedFn = false := by
      simpa using List.of_mem_filter he
    by_cases hc : fnEquiv e.1 pfnodes
    · have h2 := fnEquiv_trans_of _ _ _ hc (fnEquiv_symm_of _ _ hequiv)
      rw [h1] at h2
      exact Bool.noConfusion h2
    · simpa using hc

theorem rekey_witness (ffid : List Int → Int)
    (hffid : ∀ t1 t2, fnEquiv t1 t2 = true → ffid t1 = ffid t2)
    (m : List (List Int × Nat)) (storedFn pfnodes : List Int) (pid : Nat)
    (hu : KeysUnique m)
    (hfound : faceMapFind m pfnodes = some (storedFn, pid))
    (t : List Int) (k : Nat) (hmem : (t, k) ∈ m) :
    ∃ u, (u, k) ∈ rekeyFaceMap m storedFn pfnodes pid ∧ ffid u = ffid t := by
  obtain ⟨hmem2, hequiv2⟩ := faceMapFind_some_props m pfnodes _ hfound
  rw [rekeyFaceMap_eq m storedFn pfnodes pid hequiv2]
  by_cases hc : fnEquiv t storedFn
  · have hEqe := hu (t, k) hmem (storedFn, pid) hmem2 hc
    have hk : k = pid := by
      have := congrArg Prod.snd hEqe
      simpa using this
    have ht : t = storedFn := by
      have := congrArg Prod.fst hEqe
      simpa using this
    refine ⟨pfnodes, ?_, ?_⟩
    · rw [hk]
      exact List.mem_append.2 (Or.inr (List.mem_singleton.2 rfl))
    · rw [ht]
      exact hffid pfnodes storedFn (fnEquiv_symm_of _ _ hequiv2)
  · refine ⟨t, ?_, rfl⟩
    refine List.mem_append.2 (Or.inl (List.mem_filter.2 ⟨hmem, ?_⟩))
    simpa using hc

theorem wireParentChild_c1inv (ffid : List Int → Int) (dim2 : Bool) (s : BState)
    (a b c : Nat) (h : C1Inv ffid s) : C1Inv ffid (wireParentChild dim2 s a b c) := by
  obtain ⟨hlen, hu, hw⟩ := h
  refine ⟨?_, hu, hw⟩
  rw [(wireParentChild_sizes dim2 s a b c).1, (wireParentChild_sizes dim2 s a b c).2]
  exact hlen

theorem ascendLoop_c1inv (pfn : List Int → Option (List Int × Nat))
    (ffid : List Int → Int) (elemIsTri typeUnrec dim2 : Bool) (attr : Int)
    (junk : List Int)
    (hffid : ∀ t1 t2, fnEquiv t1 t2 = true → ffid t1 = ffid t2) :
    ∀ (fuel : Nat) (s : BState) (fn : List Int) (cur : Nat),
      C1Inv ffid s →
      C1Inv ffid (ascendLoop pfn ffid elemIsTri typeUnrec dim2 attr junk fuel s fn cur) := by
  intro fuel
  induction fuel with
  | zero => intro s fn cur h; exact h
  | succ n ih =>
    intro s fn cur h
    obtain ⟨hlen, hu, hw⟩ := h
    unfold ascendLoop
    cases hp : pfn fn with
    | none =>
      dsimp only
      refine ⟨?_, hu, hw⟩
      simp only [setElemParent]
      rw [List.length_set]
      exact hlen
    | some pr =>
      obtain ⟨pfnodes, childSlot⟩ := pr
      dsimp only
      cases hm : faceMapFind s.fmap pfnodes with
      | none =>
        dsimp only
        refine ih _ _ _ ?_
        have hnon := faceMapFind_none_nonequiv s.fmap pfnodes hm
        refine wireParentChild_c1inv ffid dim2 _ _ _ _ ?_
        refine ⟨?_, ?_, ?_⟩
        · simp only [List.length_append, List.length_singleton]
          omega
        · exact keysUnique_append s.fmap pfnodes s.elements.length hu hnon
        · intro k hk hkne
          by_cases hlt : k < s.pids.length
          · rw [List.getD_append _ _ _ _ hlt] at hkne ⊢
            obtain ⟨t, htm, htf⟩ := hw k hlt hkne
            exact ⟨t, List.mem_append.2 (Or.inl htm), htf⟩
          · have hk2 : k = s.pids.length := by
              simp only [List.length_append, List.length_singleton] at hk
              omega
            subst hk2
            refine ⟨pfnodes, ?_, ?_⟩
            · rw [hlen]
              exact List.mem_append.2 (Or.inr (List.mem_singleton.2 rfl))
            · rw [getD_append_length]
      | some e =>
        obtain ⟨storedFn, pelemId⟩ := e
        dsimp only
        by_cases hfix : (((elemIsTri && decide (childSlot ≠ 3)) || !typeUnrec)
            && !decide (pfnodes = storedFn)) = true
        · rw [if_pos hfix]
          refine ih _ _ _ ?_
          obtain ⟨hmem2, hequiv2⟩ := faceMapFind_some_props s.fmap pfnodes _ hm
          refine wireParentChild_c1inv ffid dim2 _ _ _ _ ?_
          refine ⟨?_, ?_, ?_⟩
          · by_cases hlf : (s.elements.getD pelemId default).IsLeaf
            · rw [if_pos hlf]
              simp only [clearLeafStorage]
              rw [List.length_set]
              exact hlen
            · rw [if_neg hlf]
              simp only [permuteInteriorChildren]
              rw [List.length_set]
              exact hlen
          · exact rekey_keysUnique s.fmap storedFn pfnodes pelemId hu hequiv2
          · intro k hk hkne
            obtain ⟨t, htm, htf⟩ := hw k hk hkne
            obtain ⟨u, hum, huf⟩ :=
              rekey_witness ffid hffid s.fmap storedFn pfnodes pelemId hu hm t k htm
            exact ⟨u, hum, by rw [huf, htf]⟩
        · rw [if_neg hfix]
          exact wireParentChild_c1inv ffid dim2 s pelemId childSlot cur ⟨hlen, hu, hw⟩

theorem boundaryFaceStep_c1inv (pfn : List Int → Option (List Int × Nat))
    (ffid : List Int → Int) (dim2 : Bool) (junk : List Int) (fuel : Nat)
    (hffid : ∀ t1 t2, fnEquiv t1 t2 = true → ffid t1 = ffid t2)
    (s : BState) (f : PFace) (hface : ffid f.fn = f.faceId)
    (h : C1Inv ffid s) : C1Inv ffid (boundaryFaceStep pfn ffid dim2 junk fuel s f) := by
  obtain ⟨hlen, hu, hw⟩ := h
  unfold boundaryFaceStep
  by_cases h1 : f.unused
  · rw [if_pos h1]
    exact ⟨hlen, hu, hw⟩
  · rw [if_neg h1]
    by_cases h2 : (!f.matched || f.isMaster) = true
    · rw [if_pos h2]
      exact ⟨hlen, hu, hw⟩
    · rw [if_neg h2]
      by_cases h3 : (faceMapFind s.fmap f.fn).isSome
      · rw [if_pos h3]
        exact ⟨hlen, hu, hw⟩
      · rw [if_neg h3]
        refine ascendLoop_c1inv pfn ffid f.elemIsTri f.typeUnrecognized dim2
          f.attrib junk hffid fuel _ f.fn s.elements.length ?_
        have hnone : faceMapFind s.fmap f.fn = none := by
          cases hcm : faceMapFind s.fmap f.fn with
          | none => rfl
          | some e => rw [hcm] at h3; simp at h3
        have hnon := faceMapFind_none_nonequiv s.fmap f.fn hnone
        refine ⟨?_, ?_, ?_⟩
        · simp only [List.length_append, List.length_singleton]
          omega
        · exact keysUnique_append s.fmap f.fn s.elements.length hu hnon
        · intro k hk hkne
          by_cases hlt : k < s.pids.length
          · rw [List.getD_append _ _ _ _ hlt] at hkne ⊢
            obtain ⟨t, htm, htf⟩ := hw k hlt hkne
            exact ⟨t, List.mem_append.2 (Or.inl htm), htf⟩
          · have hk2 : k = s.pids.length := by
              simp only [List.length_append, List.length_singleton] at hk
              omega
            subst hk2
            refine ⟨f.fn, ?_, ?_⟩
            · rw [hlen]
              exact List.mem_append.2 (Or.inr (List.mem_singleton.2 rfl))
            · rw [getD_append_length]
              exact hface

theorem runBoundaryDiscovery_c1inv (pfn : List Int → Option (List Int × Nat))
    (ffid : List Int → Int) (dim2 : Bool) (junk : List Int) (fuel : Nat)
    (faces : List PFace)
    (hffid : ∀ t1 t2, fnEquiv t1 t2 = true → ffid t1 = ffid t2)
    (hface : ∀ f ∈ faces, ffid f.fn = f.faceId) :
    C1Inv ffid (runBoundaryDiscovery pfn ffid dim2 junk fuel faces) := by
  unfold runBoundaryDiscovery
  have hgen : ∀ (fs : List PFace) (s : BState), (∀ f ∈ fs, ffid f.fn = f.faceId) →
      C1Inv ffid s →
      C1Inv ffid (fs.foldl (boundaryFaceStep pfn ffid dim2 junk fuel) s) := by
    intro fs
    induction fs with
    | nil => intro s _ h; exact h
    | cons f fs2 ih =>
      intro s hfc h
      rw [List.foldl_cons]
      exact ih _ (fun g hg => hfc g (List.mem_cons_of_mem _ hg))
        (boundaryFaceStep_c1inv pfn ffid dim2 junk fuel hffid s f
          (hfc f (List.mem_cons_self _ _)) h)
  refine hgen faces _ hface ⟨rfl, ?_, ?_⟩
  · intro e1 h1
    simp at h1
  · intro k hk
    simp at hk

theorem distinctNonNeg_of_c1inv (ffid : List Int → Int) (s : BState)
    (hinj : ∀ t1 t2, ffid t1 = ffid t2 → ffid t1 ≠ -1 → fnEquiv t1 t2 = true)
    (h : C1Inv ffid s) : DistinctNonNeg s.pids := by
  intro k1 h1 k2 h2 hne hEq
  obtain ⟨t1, hm1, hf1⟩ := h.2.2 k1 h1 hne
  obtain ⟨t2, hm2, hf2⟩ := h.2.2 k2 h2 (by rw [← hEq]; exact hne)
  have hff : ffid t1 = ffid t2 := by rw [hf1, hf2, hEq]
  have hEqv := hinj t1 t2 hff (by rw [hf1]; exact hne)
  have hent := h.2.1 (t1, k1) hm1 (t2, k2) hm2 hEqv
  have := congrArg Prod.snd hent
  simpa using this

theorem rebuildInv_filter_take (pids : List Int) (hdist : DistinctNonNeg pids) :
    ∀ k, k ≤ pids.length →
      (List.range k).foldl
        (fun m i => if pids.getD i 0 = -1 then m else mapSet m (pids.getD i 0) i) []
      = ((List.range k).filter (fun i => decide (pids.getD i 0 ≠ -1))).map
          (fun i => (pids.getD i 0, i)) := by
  intro k
  induction k with
  | zero => intro _; rfl
  | succ k ih =>
    intro hk
    have hk2 : k < pids.length := hk
    rw [List.range_succ, List.foldl_append, List.filter_append, List.map_append,
      ih (le_of_lt hk2)]
    by_cases hc : pids.getD k 0 = -1
    · simp only [List.foldl_cons, List.foldl_nil, if_pos hc]
      have hcd : decide (pids.getD k 0 ≠ -1) = false :=
        decide_eq_false (fun hcc => hcc hc)
      have hfil : List.filter (fun i => decide (pids.getD i 0 ≠ -1)) [k] = [] := by
        rw [List.filter_cons, hcd]
        rfl
      rw [hfil]
      simp
    · simp only [List.foldl_cons, List.foldl_nil, if_neg hc]
      have hcd : decide (pids.getD k 0 ≠ -1) = true := decide_eq_true hc
      have hfil : List.filter (fun i => decide (pids.getD i 0 ≠ -1)) [k] = [k] := by
        rw [List.filter_cons, hcd]
        rfl
      rw [hfil]
      have hnone : alookup (((List.range k).filter
          (fun i => decide (pids.getD i 0 ≠ -1))).map (fun i => (pids.getD i 0, i)))
          (pids.getD k 0) = none := by
        rw [alookup_eq_none_iff, List.map_map]
        intro hmemk
        obtain ⟨i0, hi0, hEq0⟩ := List.mem_map.1 hmemk
        have hi0f := List.mem_filter.1 hi0
        have hi0r : i0 < k := List.mem_range.1 hi0f.1
        have hi0ne : pids.getD i0 0 ≠ -1 := by simpa using hi0f.2
        have hgd : pids.getD i0 0 = pids.getD k 0 := hEq0
        have := hdist i0 (lt_trans hi0r hk2) k hk2 hi0ne hgd
        omega
      unfold mapSet
      rw [hnone]
      simp

theorem rebuildInv_filter_eq (pids : List Int) (hdist : DistinctNonNeg pids) :
    rebuildInv pids = ((List.range pids.length).filter
      (fun i => decide (pids.getD i 0 ≠ -1))).map (fun i => (pids.getD i 0, i)) := by
  unfold rebuildInv
  exact rebuildInv_filter_take pids hdist pids.length (le_refl _)

theorem alookup_map_pids (pids : List Int) (hdist : DistinctNonNeg pids) :
    ∀ (is2 : List Nat), (∀ i ∈ is2, i < pids.length ∧ pids.getD i 0 ≠ -1) →
      ∀ j, j < pids.length → pids.getD j 0 ≠ -1 → j ∈ is2 →
      alookup (is2.map (fun i => (pids.getD i 0, i))) (pids.getD j 0) = some j := by
  intro is2
  induction is2 with
  | nil => intro _ j _ _ hj; simp at hj
  | cons i is3 ih =>
    intro hall j hj hjne hjm
    show alookup ((pids.getD i 0, i) :: is3.map (fun i => (pids.getD i 0, i)))
      (pids.getD j 0) = some j
    by_cases hc : pids.getD i 0 = pids.getD j 0
    · have hi := hall i (List.mem_cons_self _ _)
      have hij := hdist i hi.1 j hj hi.2 hc
      subst hij
      simp [alookup]
    · have hjm2 : j ∈ is3 := by
        rcases List.mem_cons.1 hjm with hEq | hmm2
        · exfalso
          rw [hEq] at hc
          exact hc rfl
        · exact hmm2
      simp only [alookup, if_neg hc]
      exact ih (fun x hx => hall x (List.mem_cons_of_mem _ hx)) j hj hjne hjm2

theorem c1Ffid_respects_equiv : ∀ t1 t2, fnEquiv t1 t2 = true →
    c1Ffid t1 = c1Ffid t2 := by
  intro t1 t2 h
  unfold c1Ffid
  by_cases h1 : fnEquiv t1 [1, 2, 3, 4]
  · rw [if_pos h1, if_pos (fnEquiv_trans_of t2 t1 _ (fnEquiv_symm_of _ _ h) h1)]
  · rw [if_neg h1]
    by_cases h2 : fnEquiv t2 [1, 2, 3, 4]
    · exact absurd (fnEquiv_trans_of t1 t2 _ h h2) h1
    · rw [if_neg h2]

theorem c1Ffid_inj : ∀ t1 t2, c1Ffid t1 = c1Ffid t2 → c1Ffid t1 ≠ -1 →
    fnEquiv t1 t2 = true := by
  intro t1 t2 h hne
  unfold c1Ffid at h hne
  by_cases h1 : fnEquiv t1 [1, 2, 3, 4]
  · by_cases h2 : fnEquiv t2 [1, 2, 3, 4]
    · exact fnEquiv_trans_of _ _ _ h1 (fnEquiv_symm_of _ _ h2)
    · rw [if_pos h1, if_neg h2] at h
      exact absurd h (by decide)
  · rw [if_neg h1] at hne
    exact absurd rfl hne

theorem c1Face_faceId_consistent : ∀ f ∈ [c1Face], c1Ffid f.fn = f.faceId := by
  decide

/-- C1 counterexample: running the boundary discovery loop on the single
matching face (1,2,3,4) with face id 5, whose coarser ancestor face
(1,2,9,10) is absent from the parent face table, records
parent_element_ids_ = [5, -1]: line 287 appends whatever
parent.faces.FindId returns with no guard. The inverse-map rebuild of lines
457-462 skips the -1 entry, so submesh element id 1 (the synthesized root)
has no inverse entry and appears zero times as a value - the claimed
everyone-exactly-once mutual bijection fails at submesh element id 1. -/
theorem C1_identity_maps_counterexample :
    (runBoundaryDiscovery c1Pfn c1Ffid true [] 3 [c1Face]).pids = [5, -1] ∧
    alookup (rebuildInv (runBoundaryDiscovery c1Pfn c1Ffid true [] 3 [c1Face]).pids)
      ((runBoundaryDiscovery c1Pfn c1Ffid true [] 3 [c1Face]).pids.getD 1 0) = none ∧
    (rebuildInv (runBoundaryDiscovery c1Pfn c1Ffid true [] 3 [c1Face]).pids).map Prod.snd
      ≠ List.range 2 := by
  decide

/-- C1 amended: the identity maps are mutual bijections modulo missing
ancestor faces. (a) Under the lockstep registration discipline (lines
86-95, 132-138) every submesh node id i in range satisfies
inverse[forward[i]] = i, the forward array has no duplicate key, and the
inverse map holds every submesh id in [0, N) exactly once -
unconditionally; the same discipline covers the domain-pass element maps.
(b) The boundary-pass rebuild (lines 457-462) restores
inverse[forward[i]] = i for every submesh element id i whose recorded
parent face id is not -1, and the inverse map holds exactly those submesh
ids, each once, whenever the non-(-1) entries are pairwise distinct.
(c) The discovery loop itself only produces parent-id arrays whose
non-(-1) entries are pairwise distinct, for every parent mesh whose FindId
depends only on the node set, agrees with the ids of the processed faces,
and returns a given non-(-1) id for essentially one node set. -/
theorem C1_identity_maps_bijection_modulo_missing_faces
    (trace : List Int) (pids : List Int) (hdist : DistinctNonNeg pids)
    (pfn : List Int → Option (List Int × Nat)) (ffid : List Int → Int)
    (dim2 : Bool) (junk : List Int) (fuel : Nat) (faces : List PFace)
    (hface : ∀ f ∈ faces, ffid f.fn = f.faceId)
    (hffid : ∀ t1 t2, fnEquiv t1 t2 = true → ffid t1 = ffid t2)
    (hinj : ∀ t1 t2, ffid t1 = ffid t2 → ffid t1 ≠ -1 → fnEquiv t1 t2 = true) :
    (∀ i, i < (idMapsRun trace).ids.length →
       alookup (idMapsRun trace).inv ((idMapsRun trace).ids.getD i 0) = some i) ∧
    (idMapsRun trace).ids.Nodup ∧
    (idMapsRun trace).inv.map Prod.snd = List.range (idMapsRun trace).ids.length ∧
    (∀ i, i < pids.length → pids.getD i 0 ≠ -1 →
       alookup (rebuildInv pids) (pids.getD i 0) = some i) ∧
    (rebuildInv pids).map Prod.snd
      = (List.range pids.length).filter (fun i => decide (pids.getD i 0 ≠ -1)) ∧
    DistinctNonNeg (runBoundaryDiscovery pfn ffid dim2 junk fuel faces).pids := by
  obtain ⟨hgi, hzip, hnodup, hcnt⟩ := idMapsRun_inv trace
  refine ⟨?_, hnodup, ?_, ?_, ?_, ?_⟩
  · intro i hi
    rw [hzip]
    exact alookup_zip_range _ hnodup i hi
  · rw [hzip]
    exact List.map_snd_zip _ _ (by simp)
  · intro i hi hne
    rw [rebuildInv_filter_eq pids hdist]
    refine alookup_map_pids pids hdist _ ?_ i hi hne ?_
    · intro x hx
      have hxf := List.mem_filter.1 hx
      exact ⟨List.mem_range.1 hxf.1, by simpa using hxf.2⟩
    · exact List.mem_filter.2 ⟨List.mem_range.2 hi, by simpa using hne⟩
  · rw [rebuildInv_filter_eq pids hdist, List.map_map]
    have hid : (Prod.snd ∘ fun i => (pids.getD i 0, i)) = id := rfl
    rw [hid, List.map_id]
  · exact distinctNonNeg_of_c1inv ffid _ hinj
      (runBoundaryDiscovery_c1inv pfn ffid dim2 junk fuel faces hffid hface)

/-- Witness for C1 amended: the registration trace [7, 3, 7, 5], the
rebuilt array [4, -1, 2] (middle entry a missing ancestor face), and the
one-face discovery run that produces [5, -1]. -/
theorem C1_identity_maps_bijection_modulo_missing_faces_witness :
    alookup (idMapsRun [7, 3, 7, 5]).inv ((idMapsRun [7, 3, 7, 5]).ids.getD 2 0) = some 2 ∧
    alookup (rebuildInv [4, -1, 2]) (([4, -1, 2] : List Int).getD 2 0) = some 2 ∧
    (rebuildInv [4, -1, 2]).map Prod.snd
      = (List.range 3).filter (fun i => decide (([4, -1, 2] : List Int).getD i 0 ≠ -1)) ∧
    DistinctNonNeg (runBoundaryDiscovery c1Pfn c1Ffid true [] 3 [c1Face]).pids :=
  ⟨(C1_identity_maps_bijection_modulo_missing_faces [7, 3, 7, 5] [4, -1, 2]
      (by unfold DistinctNonNeg; decide) c1Pfn c1Ffid true [] 3 [c1Face] c1Face_faceId_consistent
      c1Ffid_respects_equiv c1Ffid_inj).1 2 (by decide),
   (C1_identity_maps_bijection_modulo_missing_faces [7, 3, 7, 5] [4, -1, 2]
      (by unfold DistinctNonNeg; decide) c1Pfn c1Ffid true [] 3 [c1Face] c1Face_faceId_consistent
      c1Ffid_respects_equiv c1Ffid_inj).2.2.2.1 2 (by decide) (by decide),
   (C1_identity_maps_bijection_modulo_missing_faces [7, 3, 7, 5] [4, -1, 2]
      (by unfold DistinctNonNeg; decide) c1Pfn c1Ffid true [] 3 [c1Face] c1Face_faceId_consistent
      c1Ffid_respects_equiv c1Ffid_inj).2.2.2.2.1,
   (C1_identity_maps_bijection_modulo_missing_faces [7, 3, 7, 5] [4, -1, 2]
      (by unfold DistinctNonNeg; decide) c1Pfn c1Ffid true [] 3 [c1Face] c1Face_faceId_consistent
      c1Ffid_respects_equiv c1Ffid_inj).2.2.2.2.2⟩

end NCSub
